import Mathlib

/-!
A verification development for the expression-tree core of a math
typesetting library: the atom (tree node) data model, branch mutation
with dirty-flag propagation, the layout engine's superscript/subscript
attachment (TeXbook rules 18a-f), the sibling-list render entry point,
and the LaTeX serializer.

Numeric quantities (font metrics, box dimensions) are modelled as
rationals.  External collaborators (the box primitive `Span`, the
font-metrics and math-style tables, the token joiner) are modelled from
the specification and are marked as such in their doc comments.  The
layout engine is modelled on a purely functional tree (`Render.Atom`);
the mutation API, which relies on `parent` back-pointers, is modelled on
an arena of nodes addressed by numeric ids (`Mut`).
-/

namespace Mathlive

/-- The `AtomType` union of the source, as a closed enumeration.  The
empty-string member is `blank` and the literal member `'none'` is
`noneT`; `'macro'` is `macroT`. -/
inductive AtomType where
  | blank | accent | array | box | chem | command | composition | delim
  | enclose | error | first | genfrac | group | leftright | line | macroT
  | mbin | mclose | minner | mop | mopen | mord | mpunct | mrel | msubsup
  | noneT | overlap | overunder | placeholder | phantom | root | rule
  | sizeddelim | space | spacing | surd | text | textord
deriving DecidableEq, Repr

/-- Modelled from the spec: the box primitive's `SpanType` membership
test (`isSpanType` in the span module, which is an external
collaborator): the kind-derived box categories a span may be tagged
with. -/
def isSpanType : AtomType → Bool
  | .mbin | .mclose | .minner | .mop | .mopen | .mord | .mpunct | .mrel
  | .spacing | .first | .command | .error | .placeholder | .msubsup
  | .noneT => true
  | _ => false

/-- The named branches of an atom (`BranchName` in the source).  ColRow
(cell) branches of array atoms are outside the modelled claims. -/
inductive BranchName where
  | above | body | below | superscript | subscript
deriving DecidableEq, Repr

namespace Render

/-- Modelled from the spec: the per-style-tier font metric constants the
layout engine reads (`mathstyle.metrics`; the font-metrics table is an
external collaborator). -/
structure StyleMetrics where
  sup1 : ℚ
  sup2 : ℚ
  sup3 : ℚ
  sub1 : ℚ
  sub2 : ℚ
  supDrop : ℚ
  subDrop : ℚ
  xHeight : ℚ
deriving DecidableEq, Repr

/-- Modelled from the spec: the style-independent font metric constants
(`METRICS` / `FONTMETRICS`, an external collaborator). -/
structure FontConstants where
  defaultRuleThickness : ℚ
  ptPerEm : ℚ
deriving DecidableEq, Repr

/-- The four TeX style tiers (display, text, script, scriptscript). -/
inductive StyleKind where
  | D | T | S | SS
deriving DecidableEq, Repr

/-- Modelled from the spec: a math style (an entry of the `MATHSTYLES`
table, an external collaborator): a style tier, a cramped flag, the
tier's size multiplier and its metric constants. -/
structure Mathstyle where
  kind : StyleKind
  cramped : Bool
  sizeMultiplier : ℚ
  metrics : StyleMetrics
deriving DecidableEq, Repr

/-- Modelled from the spec: the numeric id distinguishing `MATHSTYLES`
entries (the source compares `mathstyle.id`). -/
def Mathstyle.id (m : Mathstyle) : ℕ :=
  (match m.kind with
   | .D => 0
   | .T => 2
   | .S => 4
   | .SS => 6) + (if m.cramped then 1 else 0)

/-- Modelled from the spec: the test `mathstyle === MATHSTYLES.displaystyle`
(identity with the non-cramped display entry of the table). -/
def Mathstyle.isDisplaystyle (m : Mathstyle) : Bool :=
  m.kind = .D && !m.cramped

/-- Modelled from the spec: the `MATHSTYLES.textstyle.sizeMultiplier`
constant (the text style renders at scale 1). -/
def textstyleSizeMultiplier : ℚ := 1

/-- Modelled from the spec: style tier used for a superscript
(`mathstyle.sup()`): one tier smaller, crampedness preserved. -/
def StyleKind.supKind : StyleKind → StyleKind
  | .D => .S
  | .T => .S
  | .S => .SS
  | .SS => .SS

/-- The non-recursive payload of a geometric box. -/
structure SpanData where
  type : AtomType
  classes : String
  height : ℚ
  depth : ℚ
  italic : ℚ
  left : ℚ
  right : ℚ
  /-- The vertical shift assigned to this box by a vertical-list
  stacking constructor (positive moves the box down). -/
  vshift : ℚ
  caret : Option String
  selected : Bool
deriving DecidableEq, Repr

/-- Modelled from the spec: the geometric box primitive (`Span`), an
external collaborator: height, depth, italic correction, horizontal
margins and an ordered list of child boxes. -/
inductive Span where
  | mk (data : SpanData) (children : List Span)

def Span.data : Span → SpanData
  | .mk d _ => d

def Span.children : Span → List Span
  | .mk _ c => c

def Span.height (s : Span) : ℚ := s.data.height
def Span.depth (s : Span) : ℚ := s.data.depth
def Span.italic (s : Span) : ℚ := s.data.italic
def Span.type (s : Span) : AtomType := s.data.type
def Span.vshift (s : Span) : ℚ := s.data.vshift

def Span.withData (s : Span) (d : SpanData) : Span := .mk d s.children

/-- `height(spans)` of the span module on a list: the extent of a
horizontal stack.  Modelled from the spec (box stacking). -/
def spanListHeight (l : List Span) : ℚ := (l.map Span.height).foldr max 0

/-- `depth(spans)` of the span module on a list.  Modelled from the
spec (box stacking). -/
def spanListDepth (l : List Span) : ℚ := (l.map Span.depth).foldr max 0

/-- Modelled from the spec: `makeSpan(children, classes, type)`, the
horizontal stacking constructor of the box primitive. -/
def makeSpanList (children : List Span) (classes : String)
    (ty : AtomType) : Span :=
  .mk { type := ty, classes := classes,
        height := spanListHeight children, depth := spanListDepth children,
        italic := 0, left := 0, right := 0, vshift := 0,
        caret := none, selected := false } children

/-- Modelled from the spec: a box for a literal character/string, whose
height, depth and italic correction come from the external font-metrics
table `cm` (value ↦ (height, depth, italic)). -/
def makeCharSpan (cm : String → ℚ × ℚ × ℚ) (value : String)
    (classes : String) (ty : AtomType) : Span :=
  .mk { type := ty, classes := classes,
        height := (cm value).1, depth := (cm value).2.1,
        italic := (cm value).2.2, left := 0, right := 0, vshift := 0,
        caret := none, selected := false } []

/-- Modelled from the spec: `makeVlist(context, [b₁, s₁, b₂, s₂, …],
'individualShift')`: stack rows, each with its own baseline shift
(positive down); the resulting box spans the extremes of the rows. -/
def makeVlistIndividualShift (rows : List (Span × ℚ)) : Span :=
  let kids := rows.map fun (s, sh) => s.withData { s.data with vshift := sh }
  .mk { type := .blank, classes := "",
        height := (rows.map fun (s, sh) => s.height - sh).foldr max 0,
        depth := (rows.map fun (s, sh) => s.depth + sh).foldr max 0,
        italic := 0, left := 0, right := 0, vshift := 0,
        caret := none, selected := false } kids

/-- Modelled from the spec: `makeVlist(context, [b], 'shift', a)`: a
single row with its baseline shifted down by `a`. -/
def makeVlistShift (s : Span) (a : ℚ) : Span :=
  .mk { type := .blank, classes := "",
        height := s.height - a, depth := s.depth + a,
        italic := 0, left := 0, right := 0, vshift := 0,
        caret := none, selected := false }
      [s.withData { s.data with vshift := a }]

/-- `span.selected(true)` on one span: mark it selected. -/
def Span.setSelectedTop (s : Span) : Span :=
  s.withData { s.data with selected := true }

/-- Update `children[0].left` of a span (used by the sup/sub attachment
to undo the nucleus italic correction on the subscript row). -/
def Span.setChild0Left (s : Span) (v : ℚ) : Span :=
  match s with
  | .mk d (c :: cs) => .mk d (c.withData { c.data with left := v } :: cs)
  | .mk d [] => .mk d []

/-- Update `children[0].right` of a span (script-space reservation). -/
def Span.setChild0Right (s : Span) (v : ℚ) : Span :=
  match s with
  | .mk d (c :: cs) => .mk d (c.withData { c.data with right := v } :: cs)
  | .mk d [] => .mk d []

/-- Scale a span's height and depth by a factor (the nested style / size
reconciliation of the sibling-list render). -/
def Span.scaleHD (f : ℚ) (s : Span) : Span :=
  s.withData { s.data with height := f * s.data.height,
                           depth := f * s.data.depth }

/-- The `atomIdsSettings` of the rendering context (identifier
generation / grouped-numbering settings).  Identifier assignment itself
is an out-of-scope side channel; only the `groupNumbers` flag, which
changes control flow, is modelled. -/
structure AtomIdsSettings where
  groupNumbers : Bool
deriving DecidableEq, Repr

/-- The `SIZING_MULTIPLIER` table of the source (size class name to
font-size factor); unknown names fall outside the table (the source
yields `undefined`; the model returns 1 and is only ever applied to
table keys). -/
def SIZING_MULTIPLIER : String → ℚ
  | "size1" => 1/2
  | "size2" => 7/10
  | "size3" => 4/5
  | "size4" => 9/10
  | "size5" => 1
  | "size6" => 6/5
  | "size7" => 36/25
  | "size8" => 173/100
  | "size9" => 207/100
  | "size10" => 249/100
  | _ => 1

/-- Modelled from the spec: the rendering `Context` (an external
collaborator): current and parent math style, current and parent size
class, the grouped-numbering settings, the accumulated phantom base,
the global font constants, the math-style table (tier and crampedness to
style) and the per-character font metrics. -/
structure Context where
  mathstyle : Mathstyle
  parentMathstyle : Mathstyle
  size : String
  parentSize : String
  atomIdsSettings : Option AtomIdsSettings
  phantomBase : Option (List Span)
  fontConstants : FontConstants
  mathstyles : StyleKind → Bool → Mathstyle
  charMetrics : String → ℚ × ℚ × ℚ

/-- Modelled from the spec: `context.sup()`: enter the superscript
sub-style (one tier smaller, crampedness preserved); the previous style
and size become the parents for the nested-run rescaling. -/
def Context.sup (ctx : Context) : Context :=
  { ctx with
      mathstyle := ctx.mathstyles ctx.mathstyle.kind.supKind ctx.mathstyle.cramped,
      parentMathstyle := ctx.mathstyle,
      parentSize := ctx.size }

/-- Modelled from the spec: `context.sub()`: enter the subscript
sub-style (one tier smaller, cramped). -/
def Context.sub (ctx : Context) : Context :=
  { ctx with
      mathstyle := ctx.mathstyles ctx.mathstyle.kind.supKind true,
      parentMathstyle := ctx.mathstyle,
      parentSize := ctx.size }

/-- Modelled from the spec: `mathstyle.adjustTo(target)` produces CSS
class names reconciling two styles; class strings are presentational
and carried opaquely. -/
def Mathstyle.adjustTo (_m _target : Mathstyle) : String := ""

/-- The non-recursive payload of a tree node.  The per-instance
`toLatexOverride` hook is external (per-definition emitters) and is not
modelled; style is reduced to the two properties the serializer's
run-grouping reads (`cssClass`, `color`). -/
structure AtomData where
  type : AtomType
  mode : String
  value : Option String
  command : Option String
  /-- Verbatim LaTeX of the command and its arguments. -/
  latex : Option String
  /-- `'limits' | 'nolimits' | 'accent' | 'overunder' | 'auto'`, or
  absent. -/
  limits : Option String
  isSelected : Bool
  isExtensibleSymbol : Bool
  containsCaret : Bool
  caret : Option String
  styleCssClass : Option String
  styleColor : Option String
  /-- `baseType` of the `SubsupAtom` subclass (absent elsewhere). -/
  baseType : Option AtomType
deriving DecidableEq, Repr

/-- A tree node (the `Atom` class), restricted to the purely functional
view the layout engine and serializer read: its payload and its five
named branches.  A present branch holds its full sequence, including the
leading `'first'` sentinel when the tree is well formed. -/
inductive Atom where
  | mk (data : AtomData)
       (above body below superscript subscript : Option (List Atom))

def Atom.data : Atom → AtomData
  | .mk d _ _ _ _ _ => d

def Atom.above : Atom → Option (List Atom)
  | .mk _ a _ _ _ _ => a

def Atom.body : Atom → Option (List Atom)
  | .mk _ _ b _ _ _ => b

/-- The `below` branch (named `belowBr` because `Atom.below` is a
reserved auto-generated name). -/
def Atom.belowBr : Atom → Option (List Atom)
  | .mk _ _ _ b _ _ => b

def Atom.superscript : Atom → Option (List Atom)
  | .mk _ _ _ _ s _ => s

def Atom.subscript : Atom → Option (List Atom)
  | .mk _ _ _ _ _ s => s

def Atom.type (a : Atom) : AtomType := a.data.type
def Atom.mode (a : Atom) : String := a.data.mode
def Atom.value (a : Atom) : Option String := a.data.value
def Atom.command (a : Atom) : Option String := a.data.command
def Atom.latex (a : Atom) : Option String := a.data.latex
def Atom.limits (a : Atom) : Option String := a.data.limits
def Atom.isSelected (a : Atom) : Bool := a.data.isSelected
def Atom.isExtensibleSymbol (a : Atom) : Bool := a.data.isExtensibleSymbol
def Atom.containsCaret (a : Atom) : Bool := a.data.containsCaret
def Atom.caret (a : Atom) : Option String := a.data.caret

/-- `branch(name)`: the atoms in the branch, or `none` (null) if it was
never created.  (The source also returns null when the whole `branches`
record is absent; the two absences are indistinguishable through this
accessor and are collapsed in this functional view.) -/
def Atom.branch (a : Atom) : BranchName → Option (List Atom)
  | .above => a.above
  | .body => a.body
  | .below => a.belowBr
  | .superscript => a.superscript
  | .subscript => a.subscript

/-- `hasEmptyBranch(branch)`: absent branch, or length 1 (only the
`'first'` sentinel).  The source's debug assertions (non-empty, sentinel
head) are invariants of well-formed trees, stated as hypotheses in the
theorems below. -/
def Atom.hasEmptyBranch (a : Atom) (b : BranchName) : Bool :=
  match a.branch b with
  | none => true
  | some atoms => atoms.length == 1

/-- The structural size of an atom (the nested-inductive `SizeOf`
instance is not executable, so the measure is defined by hand through
the auxiliary list/option sizes below). -/
def Atom.sizeA : Atom → ℕ
  | .mk _ ab bo be sup sub =>
    1 + sizeLO ab + sizeLO bo + sizeLO be + sizeLO sup + sizeLO sub
where
  /-- Size of an optional branch list. -/
  sizeLO : Option (List Atom) → ℕ
    | none => 0
    | some l => sizeL l
  /-- Size of a branch list. -/
  sizeL : List Atom → ℕ
    | [] => 1
    | a :: l => 1 + Atom.sizeA a + sizeL l

/-- `getInitialBaseElement()` with an explicit recursion bound (kept
structural so that the definition evaluates by kernel reduction):
descend into the `body` branch past its leading sentinel while a
non-empty body exists (`this.body[1]`; a malformed body with fewer than
two entries crashes in the source and yields the atom itself here). -/
def Atom.getInitialBaseElementF : ℕ → Atom → Atom
  | 0, a => a
  | n + 1, a =>
    if a.hasEmptyBranch .body then a
    else
      match a.body with
      | some (_ :: b :: _) => Atom.getInitialBaseElementF n b
      | _ => a

/-- `getInitialBaseElement()`: the bound `sizeA a` exceeds the depth
of every descent. -/
def Atom.getInitialBaseElement (a : Atom) : Atom :=
  Atom.getInitialBaseElementF a.sizeA a

/-- `isCharacterBox()`: the initial base element's type matches
`minner|mbin|mrel|mpunct|mopen|mclose|textord` (a substring regex over
the closed `AtomType` union, equivalent to membership). -/
def Atom.isCharacterBox (a : Atom) : Bool :=
  match a.getInitialBaseElement.type with
  | .minner | .mbin | .mrel | .mpunct | .mopen | .mclose | .textord => true
  | _ => false

/-- The type of the per-atom render step, used for the dynamic dispatch
`atoms[i].render(context)` (node kinds are an open registry in the
source; the concrete dispatch for the kinds of this module is
`renderDispatchWith` below, closed with fuel as `renderA`). -/
abbrev RenderFn := Context → Atom → Option (List Span)

/-- `Atom.attachSupsub`, rules 18a-e, given the already-rendered
superscript/subscript boxes `supmid`/`submid` (`none` exactly when the
corresponding branch is absent). -/
def Atom.attachSupsubCore (a : Atom) (ctx : Context) (nucleus : Span)
    (ty : AtomType) (supmid submid : Option Span) : Span :=
  let mathstyle := ctx.mathstyle
  -- Rule 18a, p445
  let supShift : ℚ :=
    if !a.isCharacterBox then nucleus.height - mathstyle.metrics.supDrop else 0
  let subShift : ℚ :=
    if !a.isCharacterBox then nucleus.depth + mathstyle.metrics.subDrop else 0
  -- Rule 18c, p445
  let minSupShift : ℚ :=
    if mathstyle.isDisplaystyle then mathstyle.metrics.sup1
    else if mathstyle.cramped then mathstyle.metrics.sup3
    else mathstyle.metrics.sup2
  -- scriptspace is a font-size-independent size, scaled appropriately
  let multiplier := textstyleSizeMultiplier * mathstyle.sizeMultiplier
  let scriptspace := (1 / 2) / ctx.fontConstants.ptPerEm / multiplier
  let supsub : Option Span :=
    match submid, supmid with
    | some bm, some sm =>
      -- Rule 18e
      let supShift := max (max supShift minSupShift)
        (sm.depth + (1 / 4) * mathstyle.metrics.xHeight)
      let subShift := max subShift mathstyle.metrics.sub2
      let ruleWidth := ctx.fontConstants.defaultRuleThickness
      let (supShift, subShift) :=
        if supShift - sm.depth - (bm.height - subShift) < 4 * ruleWidth then
          let subShift := 4 * ruleWidth - (supShift - sm.depth) + bm.height
          let psi := (4 / 5) * mathstyle.metrics.xHeight - (supShift - sm.depth)
          if 0 < psi then (supShift + psi, subShift - psi)
          else (supShift, subShift)
        else (supShift, subShift)
      let supsub := makeVlistIndividualShift [(bm, subShift), (sm, -supShift)]
      -- Subscripts should not be shifted by the nucleus' italic
      -- correction; shift the subscript row back when the nucleus is an
      -- extensible symbol.
      if a.isExtensibleSymbol then some (supsub.setChild0Left (-nucleus.italic))
      else some supsub
    | some bm, none =>
      -- Rule 18b
      let subShift := max (max subShift mathstyle.metrics.sub1)
        (bm.height - (4 / 5) * mathstyle.metrics.xHeight)
      let supsub := (makeVlistShift bm subShift).setChild0Right scriptspace
      if a.isCharacterBox then some (supsub.setChild0Left (-nucleus.italic))
      else some supsub
    | none, some sm =>
      -- Rule 18c, d
      let supShift := max (max supShift minSupShift)
        (sm.depth + (1 / 4) * mathstyle.metrics.xHeight)
      some ((makeVlistShift sm (-supShift)).setChild0Right scriptspace)
    | none, none => none
  -- The caret displays after the scripts: it attaches to the 'msubsup'
  -- container, not the nucleus.
  let supsubContainer := makeSpanList supsub.toList "msubsup" .blank
  let supsubContainer :=
    match a.caret with
    | some c =>
        supsubContainer.withData { supsubContainer.data with caret := some c }
    | none => supsubContainer
  makeSpanList [nucleus, supsubContainer] "" ty

/-- The multi-atom loop of the static `Atom.render`: render node by
node, buffering boxes of selected nodes so that a selection run is
spliced back contiguously; each produced run becomes the phantom base
for the next node.  (The grouped-numbering identifier bookkeeping, an
out-of-scope side channel that assigns shared ids, is omitted.) -/
def renderLoopWith (r : RenderFn) (displaySelection : Bool) :
    Context → List Atom → List Span → List Span → List Span
  | _, [], result, selection =>
      -- Is there a leftover selection?
      if selection.length > 0 then result ++ selection else result
  | ctx, a :: rest, result, selection =>
      match r ctx a with
      | none => renderLoopWith r displaySelection ctx rest result selection
      | some span =>
        -- Flatten the spans (a nested span array cannot arise in this
        -- typed model)
        let flat := span
        let ctx := { ctx with phantomBase := some flat }
        if displaySelection && a.isSelected then
          renderLoopWith r displaySelection ctx rest result
            ((selection ++ flat).map Span.setSelectedTop)
        else
          let result :=
            if selection.length > 0 then result ++ selection else result
          renderLoopWith r displaySelection ctx rest (result ++ flat) []

/-- The static `Atom.render` entry point on a sibling list: `none`
models an absent (`undefined`/`null`) input or result, `some []` the
empty box list. -/
def renderListWith (r : RenderFn) (inputContext : Context)
    (atoms : Option (List Atom)) : Option (List Span) :=
  match atoms with
  | none => none
  | some l =>
    if l.length = 0 then some []
    else
      let context := inputContext
      -- Selection is displayed except under grouped numbering
      let displaySelection :=
        match context.atomIdsSettings with
        | none => true
        | some s => !s.groupNumbers
      let result : Option (List Span) :=
        match l with
        | [a] =>
          match r context a with
          | none => none
          | some res =>
            some (if displaySelection && a.isSelected
                  then res.map Span.setSelectedTop else res)
        | _ => some (renderLoopWith r displaySelection context l [] [])
      match result with
      | none => none
      | some res =>
        if res.length = 0 then none
        else
          -- Account for a mathstyle change between parent and current
          let res :=
            if context.mathstyle.id ≠ context.parentMathstyle.id then
              let factor := context.mathstyle.sizeMultiplier /
                context.parentMathstyle.sizeMultiplier
              res.map (Span.scaleHD factor)
            else res
          -- Account for a size change between parent and current group
          let res :=
            if context.size ≠ context.parentSize then
              let factor := SIZING_MULTIPLIER context.size /
                SIZING_MULTIPLIER context.parentSize
              res.map (Span.scaleHD factor)
            else res
          some res

/-- `Atom.attachSupsub`: returns the nucleus unchanged when neither
branch is present; otherwise renders each present branch under its
sub-style and attaches by rules 18a-e. -/
def Atom.attachSupsubWith (r : RenderFn) (a : Atom) (ctx : Context)
    (nucleus : Span) (ty : AtomType) : Span :=
  -- If no superscript or subscript, nothing to do.
  if a.superscript.isNone && a.subscript.isNone then nucleus
  else
    let mathstyle := ctx.mathstyle
    let supmid : Option Span :=
      match a.superscript with
      | some sup =>
        some (makeSpanList ((renderListWith r ctx.sup (some sup)).getD [])
          (mathstyle.adjustTo ctx.sup.mathstyle) .blank)
      | none => none
    let submid : Option Span :=
      match a.subscript with
      | some sub =>
        some (makeSpanList ((renderListWith r ctx.sub (some sub)).getD [])
          (mathstyle.adjustTo ctx.sub.mathstyle) .blank)
      | none => none
    a.attachSupsubCore ctx nucleus ty supmid submid

/-- The `Atom.makeSpan` method: build one box from the `body` branch, or
from the literal `value` when no body exists.  (Font/style application,
sizing classes and id binding are presentational or out-of-scope side
channels and are not modelled.) -/
def Atom.makeSpanM (a : Atom) (r : RenderFn) (ctx : Context) : Span :=
  -- Ensure the atom type is a valid span type, or use ''
  let ty : AtomType :=
    if a.type = .textord then .mord
    else if isSpanType a.type then a.type else .blank
  let result : Span :=
    match a.body with
    | some _ => makeSpanList ((renderListWith r ctx a.body).getD []) "" ty
    | none =>
      match a.value with
      | some v => makeCharSpan ctx.charMetrics v "" ty
      | none => makeSpanList [] "" ty
  -- The italic correction applies only in math mode
  let result :=
    if a.mode ≠ "math" then result.withData { result.data with italic := 0 }
    else result
  let result := result.withData { result.data with right := result.data.italic }
  -- With a super/subscript the caret is attached to the 'msubsup'
  -- container instead
  let result :=
    match a.caret with
    | some c =>
      if a.superscript.isNone && a.subscript.isNone then
        result.withData { result.data with caret := some c }
      else result
    | none => result
  result

/-- The nucleus box of the default single-node `Atom.render`: one box
from body/value, tagged with the kind-derived category (or '' for an
invalid span type), with the caret-path class appended when the node is
on the active-caret path. -/
def Atom.renderNucleus (a : Atom) (r : RenderFn) (ctx : Context) : Span :=
  -- Render the body branch if present, or the literal value
  let result := a.makeSpanM r ctx
  -- (the source's `if (!result) return null` guard is unreachable: the
  -- box constructor never returns an absent box)
  let result := result.withData { result.data with
    type := (if isSpanType a.type then a.type else AtomType.blank) }
  if a.containsCaret then
    result.withData { result.data with classes :=
      result.data.classes ++ " ML__contains-caret" }
  else result

/-- The default single-node `Atom.render`: the nucleus box, then corner
sup/sub attachment unless `limits` is set (with `limits` set, the
attachment of sup/sub is handled in the atom decomposition instead). -/
def Atom.renderOneWith (r : RenderFn) (a : Atom) (ctx : Context) :
    Option (List Span) :=
  let result := a.renderNucleus r ctx
  -- Finally, render any necessary superscript, subscripts
  let result :=
    if a.limits.isNone && (a.superscript.isSome || a.subscript.isSome) then
      a.attachSupsubWith r ctx result result.type
    else result
  some [result]

/-- `SubsupAtom.render`: a zero-width base taking its extent from the
accumulated phantom base, then sup/sub attachment (the caret for this
atom type is handled by its elements; the source asserts `!this.limits`
here). -/
def Atom.subsupRenderWith (r : RenderFn) (a : Atom) (ctx : Context) :
    Option (List Span) :=
  let baseType : AtomType :=
    match a.data.baseType with
    | some .mbin => .mbin
    | some .mop => .mop
    | some .mrel => .mrel
    | some .mopen => .mopen
    | some .mclose => .mclose
    | some .mpunct => .mpunct
    | some .minner => .minner
    | some .spacing => .spacing
    | _ => .mord
  let result := makeCharSpan ctx.charMetrics "​" "" baseType
  let result :=
    match ctx.phantomBase with
    | some pb => result.withData { result.data with
        height := spanListHeight pb, depth := spanListDepth pb }
    | none => result
  some [a.attachSupsubWith r ctx result result.type]

/-- The per-kind render dispatch for the node kinds of this module. -/
def renderDispatchWith (r : RenderFn) (ctx : Context) (a : Atom) :
    Option (List Span) :=
  match a.type with
  | .msubsup => a.subsupRenderWith r ctx
  | _ => a.renderOneWith r ctx

/-- The render recursion, closed with a fuel bound on the nesting
depth (`none` when the fuel runs out; any fuel larger than the tree
depth is enough). -/
def renderA : ℕ → RenderFn
  | 0 => fun _ _ => none
  | n + 1 => fun ctx a => renderDispatchWith (renderA n) ctx a

/-- The static `Atom.render` with concrete dispatch at fuel `n`. -/
def renderList (n : ℕ) (ctx : Context) (atoms : Option (List Atom)) :
    Option (List Span) :=
  renderListWith (renderA n) ctx atoms

/-- `Atom.attachSupsub` with concrete dispatch at fuel `n`. -/
def Atom.attachSupsub (a : Atom) (n : ℕ) (ctx : Context) (nucleus : Span)
    (ty : AtomType) : Span :=
  a.attachSupsubWith (renderA n) ctx nucleus ty

/-! ### Serializer -/

/-- `ToLatexOptions`. -/
structure ToLatexOptions where
  expandMacro : Bool
deriving DecidableEq, Repr

/-- Modelled from the spec: `joinLatex` of the tokenizer (an external
collaborator); token-joining details are referenced only as an
interface and are modelled as plain concatenation. -/
def joinLatex (l : List String) : String := String.join l

/-- Modelled from the spec: `charToLatex`, the mode-aware
symbol-to-markup table (an external collaborator); the table contents
are out of scope and every character is modelled as mapping to itself.
The source falls back to the atom's recorded command when the table has
no entry. -/
def charToLatex (_mode : String) (value : String) : Option String :=
  some value

/-- Partition a list into maximal runs of adjacent elements sharing a
key (`getPropertyRuns` / `getModeRuns` of the mode-utils module, an
external collaborator; modelled from the spec's run-grouping rule). -/
def getRunsBy (key : Atom → Option String) : List Atom → List (List Atom)
  | [] => []
  | a :: rest =>
    match getRunsBy key rest with
    | (b :: run) :: runs =>
      if key a = key b then (a :: b :: run) :: runs
      else [a] :: (b :: run) :: runs
    | runs => [a] :: runs

/-- The type of the per-atom LaTeX emitter used for the static
dispatch `Atom.toLatex(atom, options)`. -/
abbrev EmitFn := ToLatexOptions → Atom → String

/-- Modelled from the spec: `emitLatexRun`, the lower-level per-mode
emitter (an external collaborator): serialize each atom of the run via
the static emitter and join. -/
def emitLatexRunWith (e : EmitFn) (run : List Atom)
    (options : ToLatexOptions) : String :=
  joinLatex (run.map (e options))

/-- `atomsToLatex`: strip a leading sentinel (a list holding only the
sentinel yields empty text), then serialize maximal runs grouped by
style class, then color, then mode. -/
def atomsToLatexWith (e : EmitFn) (atoms : List Atom)
    (options : ToLatexOptions) : String :=
  -- Remove the 'first' atom, if present
  let atoms :=
    match atoms with
    | f :: rest => if f.type = .first then rest else f :: rest
    | [] => []
  if atoms.length = 0 then ""
  else
    joinLatex ((getRunsBy (fun x => x.data.styleCssClass) atoms).map fun x =>
      joinLatex ((getRunsBy (fun x => x.data.styleColor) x).map fun x =>
        joinLatex ((getRunsBy (fun x => some x.mode) x).map fun x =>
          emitLatexRunWith e x options)))

/-- The static `Atom.toLatex` on a (possibly absent) atom list: absent
or empty lists serialize to empty text.  (The numeric, boolean and
plain-string variants of the source's union argument are not reachable
from the modelled claims.) -/
def toLatexListWith (e : EmitFn) (options : ToLatexOptions)
    (value : Option (List Atom)) : String :=
  match value with
  | none => ""
  | some l => if l.length > 0 then atomsToLatexWith e l options else ""

/-- `Atom.bodyToLatex`. -/
def Atom.bodyToLatexWith (e : EmitFn) (options : ToLatexOptions)
    (a : Atom) : String :=
  toLatexListWith e options a.body

/-- `Atom.supsubToLatex`: an empty branch contributes nothing; a
single-character superscript is emitted bare (with the prime and
double-prime glyphs re-expanded to their named macro forms); longer
results are wrapped in grouping braces. -/
def Atom.supsubToLatexWith (e : EmitFn) (options : ToLatexOptions)
    (a : Atom) : String :=
  let result := ""
  let result :=
    if !a.hasEmptyBranch .superscript then
      let sup := toLatexListWith e options a.superscript
      if sup.length = 1 then
        let sup :=
          if sup = "′" then "\\prime "
          else if sup = "″" then "\\doubleprime "
          else sup
        result ++ "^" ++ sup
      else result ++ "^\x7b" ++ sup ++ "\x7d"
    else result
  let result :=
    if !a.hasEmptyBranch .subscript then
      let sub := toLatexListWith e options a.subscript
      if sub.length = 1 then result ++ "_" ++ sub
      else result ++ "_\x7b" ++ sub ++ "\x7d"
    else result
  result

/-- The default per-atom LaTeX emitter (`Atom.toLatex`, the instance
method): `command{body}` + scripts, or body + scripts, or the literal
value through the symbol-to-markup table. -/
def Atom.toLatexOneWith (e : EmitFn) (options : ToLatexOptions)
    (a : Atom) : String :=
  if a.body.isSome && a.command.getD "" ≠ "" then
    -- There's a command and body
    joinLatex [a.command.getD "", "\x7b", a.bodyToLatexWith e options, "\x7d",
               a.supsubToLatexWith e options]
  else if a.body.isSome then
    -- There's a body with no command
    joinLatex [a.bodyToLatexWith e options, a.supsubToLatexWith e options]
  else
    match a.value with
    | some v =>
      if v ≠ "" && v ≠ "​" then
        -- There's probably just a value (a unicode character)
        (charToLatex a.mode v).getD (a.command.getD "")
      else ""
    | none => ""

/-- The static `Atom.toLatex` on one atom: the verbatim-latex fast path
when macro expansion is not requested, otherwise the per-kind emitter.
(Per-instance `toLatexOverride` hooks are external per-definition
emitters and are not modelled.) -/
def toLatexDispatchWith (e : EmitFn) (options : ToLatexOptions)
    (a : Atom) : String :=
  -- If we have some verbatim latex for this atom, use it
  if !options.expandMacro && a.latex.isSome then a.latex.getD ""
  else a.toLatexOneWith e options

/-- The serializer recursion, closed with a fuel bound on nesting
depth. -/
def toLatexS : ℕ → EmitFn
  | 0 => fun _ _ => ""
  | n + 1 => fun options a => toLatexDispatchWith (toLatexS n) options a

/-- The static `Atom.toLatex` on an atom with concrete recursion at
fuel `n`. -/
def Atom.toLatex (a : Atom) (n : ℕ) (options : ToLatexOptions) : String :=
  toLatexS n options a

/-! ### Projections into the sup/sub attachment result -/

/-- The first script row of the attachment result: the result is
`[nucleus, container]`, the container wraps the vertical list, whose
first row is the subscript (rule 18e) or the single script (18b-d). -/
def scriptRow1Of (s : Span) : Option Span :=
  ((s.children.get? 1).bind fun c => c.children.head?).bind
    fun v => v.children.head?

/-- The second script row of the attachment result (the superscript in
rule 18e's vertical list `[submid, supmid]`). -/
def scriptRow2Of (s : Span) : Option Span :=
  ((s.children.get? 1).bind fun c => c.children.head?).bind
    fun v => v.children.get? 1

/-- The baseline shift of the first script row. -/
def subVshiftOf (s : Span) : Option ℚ := (scriptRow1Of s).map Span.vshift

/-- The baseline shift of the second script row. -/
def supVshiftOf (s : Span) : Option ℚ := (scriptRow2Of s).map Span.vshift

/-! ### The rule-18 shift formulas, as the claims state them -/

/-- Rule 18a's base superscript shift: `height − supDrop`, or 0 for a
character-box nucleus. -/
def supShiftBase (ctx : Context) (a : Atom) (nucleus : Span) : ℚ :=
  if !a.isCharacterBox then nucleus.height - ctx.mathstyle.metrics.supDrop
  else 0

/-- Rule 18a's base subscript shift: `depth + subDrop`, or 0 for a
character-box nucleus. -/
def subShiftBase (ctx : Context) (a : Atom) (nucleus : Span) : ℚ :=
  if !a.isCharacterBox then nucleus.depth + ctx.mathstyle.metrics.subDrop
  else 0

/-- The style-dependent minimum superscript shift (rule 18c): sup1 in
display style, sup3 when cramped, sup2 otherwise. -/
def minSupShiftOf (ctx : Context) : ℚ :=
  if ctx.mathstyle.isDisplaystyle then ctx.mathstyle.metrics.sup1
  else if ctx.mathstyle.cramped then ctx.mathstyle.metrics.sup3
  else ctx.mathstyle.metrics.sup2

/-- Rule 18e's superscript shift before the gap correction:
`max(base, minimum, sup-depth + xHeight/4)`. -/
def supShift18e (ctx : Context) (a : Atom) (nucleus sm : Span) : ℚ :=
  max (max (supShiftBase ctx a nucleus) (minSupShiftOf ctx))
    (sm.depth + (1 / 4) * ctx.mathstyle.metrics.xHeight)

/-- Rule 18e's subscript shift before the gap correction:
`max(base, sub2)`. -/
def subShift18e (ctx : Context) (a : Atom) (nucleus : Span) : ℚ :=
  max (subShiftBase ctx a nucleus) ctx.mathstyle.metrics.sub2

/-- The clearance between the raised superscript's bottom and the
lowered subscript's top under rule 18e's initial shifts. -/
def gap18e (ctx : Context) (a : Atom) (nucleus sm bm : Span) : ℚ :=
  supShift18e ctx a nucleus sm - sm.depth -
    (bm.height - subShift18e ctx a nucleus)

/-- The recomputed subscript shift that makes the clearance exactly
four rule thicknesses. -/
def subShiftGapOf (ctx : Context) (a : Atom) (nucleus sm bm : Span) : ℚ :=
  4 * ctx.fontConstants.defaultRuleThickness -
    (supShift18e ctx a nucleus sm - sm.depth) + bm.height

/-- The hug adjustment `psi = 0.8·xHeight − (supShift − sup-depth)`. -/
def psiOf (ctx : Context) (a : Atom) (nucleus sm : Span) : ℚ :=
  (4 / 5) * ctx.mathstyle.metrics.xHeight -
    (supShift18e ctx a nucleus sm - sm.depth)

/-- The final subscript shift as the claim words it ("the subscript
shifted down by psi"): the recomputed gap shift increased by `psi`.
This follows the spec's words, for comparison with the implementation
(which decreases the shift by `psi`). -/
def specSubShiftHug (ctx : Context) (a : Atom) (nucleus sm bm : Span) : ℚ :=
  subShiftGapOf ctx a nucleus sm bm + psiOf ctx a nucleus sm

/-! ### Concrete inputs used by the witnesses -/

/-- A character-box payload (a binary-operator symbol). -/
def cbData : AtomData :=
  { type := .mbin, mode := "math", value := some "+", command := none,
    latex := none, limits := none, isSelected := false,
    isExtensibleSymbol := false, containsCaret := false, caret := none,
    styleCssClass := none, styleColor := none, baseType := none }

/-- A character-box atom with no branches. -/
def atomCB : Atom := .mk cbData none none none none none

/-- A `'first'` sentinel atom. -/
def atomFirst : Atom := .mk { cbData with type := .first, value := none } none none none none none

/-- An atom whose superscript branch holds only the sentinel. -/
def atomSupFirst : Atom := .mk { cbData with type := .mord } none none none (some [atomFirst]) none

/-- A plain symbol atom with the given value. -/
def atomSym (v : String) : Atom :=
  .mk { cbData with type := .mord, value := some v } none none none none none

/-- Metrics for the rule-18b example: `sub1 = 0.3`, `xHeight = 0.4`. -/
def mtxB : StyleMetrics :=
  { sup1 := 0, sup2 := 0, sup3 := 0, sub1 := 3/10, sub2 := 0,
    supDrop := 0, subDrop := 0, xHeight := 2/5 }

/-- Metrics for the rule-18e counterexample: `sup2 = 0.2`,
`sub2 = 0.1`, `xHeight = 1`. -/
def mtxE : StyleMetrics :=
  { sup1 := 0, sup2 := 1/5, sup3 := 0, sub1 := 0, sub2 := 1/10,
    supDrop := 0, subDrop := 0, xHeight := 1 }

/-- A text-tier math style over the given metrics. -/
def styT (m : StyleMetrics) : Mathstyle :=
  { kind := .T, cramped := false, sizeMultiplier := 1, metrics := m }

/-- Concrete font constants: rule thickness `0.04`, `10` pt per em. -/
def fontK : FontConstants := { defaultRuleThickness := 1/25, ptPerEm := 10 }

/-- A concrete rendering context over the given metrics. -/
def ctxK (m : StyleMetrics) : Context :=
  { mathstyle := styT m, parentMathstyle := styT m,
    size := "size5", parentSize := "size5",
    atomIdsSettings := none, phantomBase := none,
    fontConstants := fontK,
    mathstyles := fun k c =>
      { kind := k, cramped := c, sizeMultiplier := 1, metrics := m },
    charMetrics := fun _ => (1/2, 1/10, 0) }

/-- A bare box with the given height, depth and italic correction. -/
def mkBox (h d i : ℚ) : Span :=
  .mk { type := .blank, classes := "", height := h, depth := d,
        italic := i, left := 0, right := 0, vshift := 0,
        caret := none, selected := false } []

/-- A render function producing no boxes for any atom. -/
def renderNone : RenderFn := fun _ _ => none

/-- `atomSupFirst`'s sup/sub attachment over a bare nucleus at fuel 4
(used to compare against the untouched nucleus). -/
def c4result : Span :=
  atomSupFirst.attachSupsubWith (renderA 4) (ctxK mtxE) (mkBox 1 0 0) .mord

/-- A verbatim-latex atom with a command and a one-symbol body, for the
serializer round-trip example. -/
def atomVerb : Atom :=
  .mk { cbData with
          type := .group
          command := some "\\foo"
          latex := some "\\xyz " }
    none (some [atomFirst, atomSym "x"]) none none none

/-- An atom with `limits` set to `'nolimits'` and a non-empty
superscript, for the limits-gating example. -/
def atomNoLimits : Atom :=
  .mk { cbData with type := .mop, limits := some "nolimits" }
    none none none (some [atomFirst, atomSym "y"]) none

end Render

namespace Mut

/-!
The mutation API of the `Atom` class.  Because children carry `parent`
back-pointers, the tree is modelled as an arena of nodes addressed by
numeric ids (as suggested by the spec's design notes): a branch stores
child ids, a node stores its parent's id.  The source's debug-time
`console.assert` checks are, per the spec's error-handling design,
contract violations to be treated as precondition checks; operations
therefore return `none` ("fault") when an assertion fails.
-/

abbrev AtomId := ℕ

/-- The named-branch record of a node (`Branches`); an absent entry is
a branch that was never created. -/
structure MBranches where
  above : Option (List AtomId) := none
  body : Option (List AtomId) := none
  below : Option (List AtomId) := none
  superscript : Option (List AtomId) := none
  subscript : Option (List AtomId) := none
deriving DecidableEq, Repr

def MBranches.get (br : MBranches) : BranchName → Option (List AtomId)
  | .above => br.above
  | .body => br.body
  | .below => br.below
  | .superscript => br.superscript
  | .subscript => br.subscript

def MBranches.setB (br : MBranches) : BranchName → Option (List AtomId) → MBranches
  | .above, v => { br with above := v }
  | .body, v => { br with body := v }
  | .below, v => { br with below := v }
  | .superscript, v => { br with superscript := v }
  | .subscript, v => { br with subscript := v }

/-- A tree node as seen by the mutation API: its type, mode, parent
back-pointer and `treeBranch` tag, the `_isDirty` flag, the two lazy
caches invalidated by the dirty setter (`_children` and the verbatim
`latex`), and the branch record. -/
structure MAtom where
  type : AtomType
  mode : String := "math"
  parent : Option AtomId := none
  treeBranch : Option BranchName := none
  isDirtyF : Bool := false
  childrenCache : Option (List AtomId) := none
  latex : Option String := none
  branches : Option MBranches := none
deriving DecidableEq, Repr

/-- The arena: allocated nodes, the list of allocated ids (used as the
fuel bound for parent-chain walks) and the next fresh id. -/
structure Store where
  nodes : AtomId → Option MAtom
  dom : List AtomId
  nextId : AtomId

def Store.get (st : Store) (i : AtomId) : Option MAtom := st.nodes i

def Store.set (st : Store) (i : AtomId) (a : MAtom) : Store :=
  { st with nodes := fun j => if j = i then some a else st.nodes j }

/-- Mutate a node in place, a no-op on a missing id. -/
def Store.modify (st : Store) (i : AtomId) (f : MAtom → MAtom) : Store :=
  match st.get i with
  | some a => st.set i (f a)
  | none => st

/-- Allocate a new node (`new Atom(...)`) at a fresh id. -/
def Store.alloc (st : Store) (a : MAtom) : Store × AtomId :=
  ({ nodes := fun j => if j = st.nextId then some a else st.nodes j,
     dom := st.dom ++ [st.nextId], nextId := st.nextId + 1 }, st.nextId)

/-- The existence-and-parent view of a node: `none` for a missing node,
otherwise its parent pointer.  Parent-chain walks depend only on this
view. -/
def parentView (st : Store) (i : AtomId) : Option (Option AtomId) :=
  (st.get i).map (·.parent)

/-- The ids marked by the upward walk of the `isDirty` setter, reading
the parent chain from pointer `p` with the given fuel. -/
def markedChain (st : Store) : ℕ → Option AtomId → List AtomId
  | _, none => []
  | 0, some _ => []
  | f + 1, some p =>
    match parentView st p with
    | none => []
    | some par => p :: markedChain st f par

/-- The parent chain from pointer `p` reaches the root (a `none`
parent) within the given fuel, passing only through existing nodes. -/
def chainClosed (st : Store) : ℕ → Option AtomId → Bool
  | _, none => true
  | 0, some _ => false
  | f + 1, some p =>
    match parentView st p with
    | none => false
    | some par => chainClosed st f par

/-- The upward walk of the `isDirty` setter: mark each ancestor dirty
and clear its caches, following `parent` pointers. -/
def markAncestorsDirty (st : Store) : ℕ → Option AtomId → Store
  | _, none => st
  | 0, some _ => st
  | f + 1, some p =>
    match st.get p with
    | none => st
    | some node =>
      markAncestorsDirty
        (st.set p { node with isDirtyF := true, childrenCache := none,
                              latex := none })
        f node.parent

/-- The `isDirty` setter with value `true`: mark the atom, clear its
caches (`latex`, `_children`), then walk up through every ancestor
doing the same.  The walk's fuel is the number of allocated nodes,
which bounds the chain length of any acyclic store. -/
def Store.markDirty (st : Store) (i : AtomId) : Store :=
  match st.get i with
  | none => st
  | some node =>
    let st1 := st.set i { node with isDirtyF := true, childrenCache := none,
                                    latex := none }
    markAncestorsDirty st1 st1.dom.length node.parent

/-- `makeFirstAtom(branch)`: a fresh `'first'` sentinel whose parent and
`treeBranch` point at the owner. -/
def makeFirstAtom (st : Store) (owner : AtomId) (mode : String)
    (branch : BranchName) : Store × AtomId :=
  st.alloc { type := .first, mode := mode, parent := some owner,
             treeBranch := some branch }

/-- `branch(name)`: the id sequence of a named branch, or `none`. -/
def Store.branchList (st : Store) (i : AtomId) (b : BranchName) :
    Option (List AtomId) :=
  match st.get i with
  | none => none
  | some a =>
    match a.branches with
    | none => none
    | some br => br.get b

/-- Overwrite one branch entry of a node's branch record. -/
def Store.writeBranch (st : Store) (i : AtomId) (b : BranchName)
    (l : Option (List AtomId)) : Store :=
  st.modify i fun a =>
    { a with branches := some ((a.branches.getD {}).setB b l) }

/-- Set a child's back-pointers (`x.parent = this; x.treeBranch =
branch`). -/
def reparent (st : Store) (c : AtomId) (p : AtomId) (b : BranchName) :
    Store :=
  st.modify c fun cn => { cn with parent := some p, treeBranch := some b }

def reparentAll (st : Store) (children : List AtomId) (p : AtomId)
    (b : BranchName) : Store :=
  children.foldl (fun st c => reparent st c p b) st

/-- Clear a child's back-pointers (`x.parent = null; x.treeBranch =
undefined`). -/
def unparent (st : Store) (c : AtomId) : Store :=
  st.modify c fun cn => { cn with parent := none, treeBranch := none }

/-- The precondition `children[0]?.type !== 'first'` (a list may not
already start with a sentinel); faults on a dangling head id. -/
def headNotFirst (st : Store) (children : List AtomId) : Option Unit :=
  match children.head? with
  | none => some ()
  | some c =>
    match st.get c with
    | none => none
    | some cn => if cn.type = .first then none else some ()

/-- `createBranch(name)`: return the existing branch or create it
seeded with a fresh sentinel; marks the owner dirty either way. -/
def Store.createBranch (st : Store) (i : AtomId) (b : BranchName) :
    Option (Store × List AtomId) :=
  match st.get i with
  | none => none
  | some a =>
    let (st1, lst) :=
      match (a.branches.getD {}).get b with
      | some l => (st, l)
      | none =>
        let (st2, fid) := makeFirstAtom st i a.mode b
        (st2.writeBranch i b (some [fid]), [fid])
    some (st1.markDirty i, lst)

/-- `setChildren(children, branch)`: replace the branch's content with
a fresh sentinel followed by the children, mark the owner dirty and
re-parent every child; rejects a list already starting with a
sentinel. -/
def Store.setChildren (st : Store) (i : AtomId) (children : List AtomId)
    (branch : BranchName) : Option Store :=
  match st.get i with
  | none => none
  | some a =>
    match headNotFirst st children with
    | none => none
    | some _ =>
      let (st1, fid) := makeFirstAtom st i a.mode branch
      let st2 := st1.writeBranch i branch (some (fid :: children))
      let st3 := st2.markDirty i
      some (reparentAll st3 children i branch)

/-- `addChild(child, branch)`: append to the (created) branch, mark
dirty, re-parent the child; a sentinel cannot be added. -/
def Store.addChild (st : Store) (i : AtomId) (child : AtomId)
    (branch : BranchName) : Option Store :=
  match st.get child with
  | none => none
  | some cn =>
    if cn.type = .first then none
    else
      match st.createBranch i branch with
      | none => none
      | some (st1, lst) =>
        let st2 := st1.writeBranch i branch (some (lst ++ [child]))
        let st3 := st2.markDirty i
        some (reparent st3 child i branch)

/-- JavaScript `indexOf`: position, or `-1` when absent. -/
def jsIndexOf (l : List AtomId) (x : AtomId) : Int :=
  match l.indexOf? x with
  | some i => (i : Int)
  | none => -1

/-- JavaScript `splice(idx, 0, ...xs)` insertion with index
normalization (a negative index counts from the end). -/
def jsSpliceInsert (l : List AtomId) (idx : Int) (xs : List AtomId) :
    List AtomId :=
  let n : Int := l.length
  let start := if idx < 0 then max (n + idx) 0 else min idx n
  l.take start.toNat ++ xs ++ l.drop start.toNat

/-- `addChildBefore(child, before)`: splice into the branch recorded on
`before`, before it; faults when `before` carries no branch tag. -/
def Store.addChildBefore (st : Store) (i : AtomId) (child before : AtomId) :
    Option Store :=
  match st.get before with
  | none => none
  | some bn =>
    match bn.treeBranch with
    | none => none
    | some b =>
      match st.createBranch i b with
      | none => none
      | some (st1, lst) =>
        let lst2 := jsSpliceInsert lst (jsIndexOf lst before) [child]
        let st2 := st1.writeBranch i b (some lst2)
        let st3 := st2.markDirty i
        some (reparent st3 child i b)

/-- `addChildAfter(child, after)`. -/
def Store.addChildAfter (st : Store) (i : AtomId) (child after : AtomId) :
    Option Store :=
  match st.get after with
  | none => none
  | some an =>
    match an.treeBranch with
    | none => none
    | some b =>
      match st.createBranch i b with
      | none => none
      | some (st1, lst) =>
        let lst2 := jsSpliceInsert lst (jsIndexOf lst after + 1) [child]
        let st2 := st1.writeBranch i b (some lst2)
        let st3 := st2.markDirty i
        some (reparent st3 child i b)

/-- `addChildren(children, branch)`: `addChild` for each in order. -/
def Store.addChildren (st : Store) (i : AtomId) (children : List AtomId)
    (branch : BranchName) : Option Store :=
  children.foldlM (fun st c => st.addChild i c branch) st

/-- `addChildrenAfter(children, after)`: batch splice after `after`. -/
def Store.addChildrenAfter (st : Store) (i : AtomId)
    (children : List AtomId) (after : AtomId) : Option Store :=
  match headNotFirst st children with
  | none => none
  | some _ =>
    match st.get after with
    | none => none
    | some an =>
      match an.treeBranch with
      | none => none
      | some b =>
        match st.createBranch i b with
        | none => none
        | some (st1, lst) =>
          let lst2 := jsSpliceInsert lst (jsIndexOf lst after + 1) children
          let st2 := st1.writeBranch i b (some lst2)
          let st3 := st2.markDirty i
          some (reparentAll st3 children i b)

/-- `removeBranch(name)`: detach every child of the branch (clearing
parent and branch tags, sentinel included), null the branch entry, drop
the sentinel from the returned list, mark dirty; faults on an absent
branch or a branch not headed by a sentinel. -/
def Store.removeBranch (st : Store) (i : AtomId) (name : BranchName) :
    Option (Store × List AtomId) :=
  match st.branchList i name with
  | none => none
  | some children =>
    let st1 := st.writeBranch i name none
    let st2 := children.foldl unparent st1
    match children with
    | [] => none
    | f :: rest =>
      match st2.get f with
      | none => none
      | some fn =>
        if fn.type = .first then some (st2.markDirty i, rest) else none

/-- `removeChild(child)`: a no-op on a sentinel; otherwise splice the
child out of its recorded branch, mark dirty and clear its
back-pointers; faults when the child does not belong to this node or
is missing from the recorded branch. -/
def Store.removeChild (st : Store) (i : AtomId) (child : AtomId) :
    Option Store :=
  match st.get child with
  | none => none
  | some cn =>
    if cn.parent = some i then
      if cn.type = .first then some st
      else
        match cn.treeBranch with
        | none => none
        | some b =>
          match st.branchList i b with
          | none => none
          | some lst =>
            match lst.indexOf? child with
            | none => none
            | some idx =>
              let lst2 := lst.take idx ++ lst.drop (idx + 1)
              let st1 := st.writeBranch i b (some lst2)
              let st2 := st1.markDirty i
              some (unparent st2 child)
    else none

/-- One mutation operation of the branch/tree mutation API. -/
inductive Op where
  | setChildren (target : AtomId) (children : List AtomId) (branch : BranchName)
  | addChild (target child : AtomId) (branch : BranchName)
  | addChildBefore (target child before : AtomId)
  | addChildAfter (target child after : AtomId)
  | addChildren (target : AtomId) (children : List AtomId) (branch : BranchName)
  | addChildrenAfter (target : AtomId) (children : List AtomId) (after : AtomId)
  | createBranch (target : AtomId) (branch : BranchName)
  | removeBranch (target : AtomId) (branch : BranchName)
  | removeChild (target child : AtomId)
deriving DecidableEq, Repr

/-- The node an operation is invoked on (`this`). -/
def Op.target : Op → AtomId
  | .setChildren t _ _ => t
  | .addChild t _ _ => t
  | .addChildBefore t _ _ => t
  | .addChildAfter t _ _ => t
  | .addChildren t _ _ => t
  | .addChildrenAfter t _ _ => t
  | .createBranch t _ => t
  | .removeBranch t _ => t
  | .removeChild t _ => t

def Op.apply (st : Store) : Op → Option Store
  | .setChildren t cs b => st.setChildren t cs b
  | .addChild t c b => st.addChild t c b
  | .addChildBefore t c before => st.addChildBefore t c before
  | .addChildAfter t c after => st.addChildAfter t c after
  | .addChildren t cs b => st.addChildren t cs b
  | .addChildrenAfter t cs after => st.addChildrenAfter t cs after
  | .createBranch t b => (st.createBranch t b).map (·.1)
  | .removeBranch t b => (st.removeBranch t b).map (·.1)
  | .removeChild t c => st.removeChild t c

/-- Apply a sequence of operations left to right, faulting if any
operation faults. -/
def applySeq (st : Store) (ops : List Op) : Option Store :=
  ops.foldlM Op.apply st

/-! ### Dirty-flag observations (claim C5) -/

/-- The `_isDirty` flag of a node (`false` for a missing node). -/
def dirtyFlag (st : Store) (j : AtomId) : Bool :=
  match st.get j with
  | some n => n.isDirtyF
  | none => false

/-- Both lazy caches of a node are cleared. -/
def cachesCleared (st : Store) (j : AtomId) : Prop :=
  ∀ n, st.get j = some n → n.childrenCache = none ∧ n.latex = none

/-- The back-pointer view of a node (`parent` and `treeBranch`), the
part of the store the ownership invariant reads on the child side. -/
def ptv (st : Store) (j : AtomId) :
    Option (Option AtomId × Option BranchName) :=
  (st.get j).map fun n => (n.parent, n.treeBranch)

/-- The node-to-root ancestor chain of `t`, the node itself included
(the set of nodes the dirty setter marks). -/
def Store.dirtyChain (st : Store) (t : AtomId) : List AtomId :=
  match parentView st t with
  | none => []
  | some par => t :: markedChain st st.dom.length par

/-- `t` exists and its parent chain reaches the root within the fuel
bound (true of every node of a well-formed finite tree). -/
def Store.chainClosedAt (st : Store) (t : AtomId) : Bool :=
  match parentView st t with
  | none => false
  | some par => chainClosed st st.dom.length par

/-- The child nodes whose back-pointers an operation rewrites before
(or between) its dirty walks: `removeBranch` detaches the branch
content before marking, and `addChildren` re-parents each child before
the next `addChild`'s marking. -/
def Op.midDetached (st : Store) : Op → List AtomId
  | .removeBranch t name => (st.branchList t name).getD []
  | .addChildren _ cs _ => cs
  | _ => []

/-! ### Exclusive ownership (claims C6, C7) -/

/-- `c` is a member of branch `b` of node `o`. -/
def Owns (st : Store) (o : AtomId) (b : BranchName) (c : AtomId) : Prop :=
  ∃ l, st.branchList o b = some l ∧ c ∈ l

/-- The exclusive single-parent ownership invariant: membership
determines the `parent` and `treeBranch` back-pointers, no node is a
member of two branches (or twice of one), and ids at or above `nextId`
are unallocated (so allocation is sound). -/
structure OwnInv (st : Store) : Prop where
  parentConsist : ∀ o b c, Owns st o b c →
    ∃ n, st.get c = some n ∧ n.parent = some o ∧ n.treeBranch = some b
  unique : ∀ o b o' b' c, Owns st o b c → Owns st o' b' c →
    o = o' ∧ b = b'
  nodup : ∀ o b l, st.branchList o b = some l → l.Nodup
  highFree : ∀ j, st.nextId ≤ j → st.get j = none

/-- A node that is a member of no branch. -/
def Detached (st : Store) (c : AtomId) : Prop :=
  ∀ o b, ¬ Owns st o b c

/-- The child nodes an attach operation inserts. -/
def Op.attachArgs : Op → List AtomId
  | .setChildren _ cs _ => cs
  | .addChild _ c _ => [c]
  | .addChildBefore _ c _ => [c]
  | .addChildAfter _ c _ => [c]
  | .addChildren _ cs _ => cs
  | .addChildrenAfter _ cs _ => cs
  | _ => []

/-- The attach operations of claim C6. -/
def Op.isAttach : Op → Bool
  | .setChildren .. => true
  | .addChild .. => true
  | .addChildBefore .. => true
  | .addChildAfter .. => true
  | .addChildrenAfter .. => true
  | _ => false

/-- The inserted children exist, are currently members of no branch,
and are pairwise distinct. -/
def FreshOK (st : Store) (op : Op) : Prop :=
  (∀ c ∈ op.attachArgs, Detached st c ∧ (st.get c).isSome = true) ∧
    op.attachArgs.Nodup

/-- Every operation of the sequence is an attach operation whose
inserted children are fresh at the time it runs. -/
def SeqOK (st : Store) : List Op → Prop
  | [] => True
  | op :: rest => op.isAttach = true ∧ FreshOK st op ∧
      ∀ st', Op.apply st op = some st' → SeqOK st' rest

/-- The degenerate invocations that return without ever reaching the
dirty setter: `removeChild` of a `'first'` sentinel (an early return in
the code) and `addChildren` with an empty list (a loop over nothing).
Neither mutates the tree. -/
def Op.isNoOp (st : Store) : Op → Prop
  | .removeChild _ c => ∃ cn, st.get c = some cn ∧ cn.type = AtomType.first
  | .addChildren _ cs _ => cs = []
  | _ => False

/-- The state of a store part-way through an operation, relative to the
starting store `st` and the operation's target `i`: the fuel bound has
not shrunk, the parent pointers along the target's ancestor chain (as
read in `st`) are untouched, dirty flags off that chain are untouched,
and ids at or above `nextId` are still unallocated. -/
def DirtyPre (st : Store) (i : AtomId) (cur : Store) : Prop :=
  st.dom.length ≤ cur.dom.length ∧
  (∀ j ∈ st.dirtyChain i, parentView cur j = parentView st j) ∧
  (∀ j, j ∉ st.dirtyChain i → dirtyFlag cur j = dirtyFlag st j) ∧
  (∀ j, cur.nextId ≤ j → cur.get j = none)

/-- What claim C5 asserts of the store an operation returns: every node
of the target's ancestor chain is dirty with both caches cleared, and
no dirty flag outside the chain has changed. -/
def DirtyPost (st : Store) (i : AtomId) (cur : Store) : Prop :=
  (∀ j ∈ st.dirtyChain i, dirtyFlag cur j = true ∧ cachesCleared cur j) ∧
  (∀ j, j ∉ st.dirtyChain i → dirtyFlag cur j = dirtyFlag st j)

/-! ### Concrete stores used by the witnesses and counterexamples -/

/-- Three nodes: a root (1) with child 2 (tagged into its body), and a
detached symbol 3; no branch sequences exist yet. -/
def stW : Store :=
  { nodes := fun j =>
      if j = 1 then some { type := .root }
      else if j = 2 then
        some { type := .group, parent := some 1, treeBranch := some .body }
      else if j = 3 then some { type := .mord }
      else none,
    dom := [1, 2, 3], nextId := 4 }

/-- Two would-be parents (1, 2) and one detached child (3). -/
def stTwo : Store :=
  { nodes := fun j =>
      if j = 1 then some { type := .group }
      else if j = 2 then some { type := .group }
      else if j = 3 then some { type := .mord }
      else none,
    dom := [1, 2, 3], nextId := 4 }

/-- Attaching the same node under two parents in sequence. -/
def opsDouble : List Op := [.addChild 1 3 .body, .addChild 2 3 .body]

/-- The store after `opsDouble` (the sequence succeeds). -/
def stDouble : Store := (applySeq stTwo opsDouble).getD stTwo

/-- The dirty-propagation witness operation: append node 3 under
node 2 of `stW`. -/
def opW : Op := .addChild 2 3 .body

/-- The store after `opW`. -/
def stW' : Store := (Op.apply stW opW).getD stW

/-- The `setChildren` witness: replace the body of node 1 of `stW` with
`[3]`. -/
def stSet' : Store := (stW.setChildren 1 [3] .body).getD stW


end Mut


namespace Render

/-- The atom whose scripts are cleared (used to state that `limits`
suppresses any contribution of the script branches). -/
def Atom.withScriptsCleared : Atom → Atom
  | .mk d ab bo be _ _ => .mk d ab bo be none none

/-- The final superscript shift of rule 18e, gap and hug corrections
included. -/
def supShiftFinal (ctx : Context) (a : Atom) (nucleus sm bm : Span) : ℚ :=
  if gap18e ctx a nucleus sm bm <
      4 * ctx.fontConstants.defaultRuleThickness then
    if 0 < psiOf ctx a nucleus sm then
      supShift18e ctx a nucleus sm + psiOf ctx a nucleus sm
    else supShift18e ctx a nucleus sm
  else supShift18e ctx a nucleus sm

/-- The final subscript shift of rule 18e, gap and hug corrections
included. -/
def subShiftFinal (ctx : Context) (a : Atom) (nucleus sm bm : Span) : ℚ :=
  if gap18e ctx a nucleus sm bm <
      4 * ctx.fontConstants.defaultRuleThickness then
    if 0 < psiOf ctx a nucleus sm then
      subShiftGapOf ctx a nucleus sm bm - psiOf ctx a nucleus sm
    else subShiftGapOf ctx a nucleus sm bm
  else subShift18e ctx a nucleus

end Render

namespace Render

/-- A horizontal stack that contains a box among its children is a
strictly larger value than that box. -/
theorem makeSpanList_cons_ne (rest : List Span) (classes : String)
    (ty : AtomType) (nucleus : Span) :
    makeSpanList (nucleus :: rest) classes ty ≠ nucleus := by
  intro h
  have hs := congrArg sizeOf h
  simp [makeSpanList] at hs
  omega

/-- A run of atoms each of which renders to no boxes accumulates
nothing in the multi-atom loop. -/
theorem renderLoop_no_boxes (r : RenderFn) (ds : Bool) (l : List Atom)
    (h : ∀ ctx a, a ∈ l → r ctx a = none ∨ r ctx a = some []) :
    ∀ ctx res, renderLoopWith r ds ctx l res [] = res := by
  induction l with
  | nil => intro ctx res; simp [renderLoopWith]
  | cons a rest ih =>
    intro ctx res
    have hrest : ∀ ctx a', a' ∈ rest → r ctx a' = none ∨ r ctx a' = some [] :=
      fun ctx a' ha' => h ctx a' (List.mem_cons_of_mem _ ha')
    rcases h ctx a (List.mem_cons_self _ _) with hr | hr <;>
      simp [renderLoopWith, hr, ih hrest]

/-- Clearing the script branches does not change the nucleus box of a
node with no active caret. -/
theorem renderNucleus_withScriptsCleared (r : RenderFn) (ctx : Context)
    (a : Atom) (hc : a.caret = none) :
    a.withScriptsCleared.renderNucleus r ctx = a.renderNucleus r ctx := by
  cases a with
  | mk d ab bo be sup sub =>
    simp only [Atom.caret, Atom.data] at hc
    simp [Atom.withScriptsCleared, Atom.renderNucleus, Atom.makeSpanM,
      Atom.type, Atom.mode, Atom.value, Atom.caret, Atom.data, Atom.body,
      Atom.superscript, Atom.subscript, Atom.containsCaret, hc]

/-- Rule 18b's attachment result, projected: the subscript row's shift,
script-space and italic-correction adjustment. -/
theorem rule18b_eval (ctx : Context) (a : Atom) (nucleus : Span)
    (ty : AtomType) (bm : Span) :
    subVshiftOf (a.attachSupsubCore ctx nucleus ty none (some bm)) =
      some (max (max (subShiftBase ctx a nucleus)
          ctx.mathstyle.metrics.sub1)
        (bm.height - (4 / 5) * ctx.mathstyle.metrics.xHeight))
    ∧ (scriptRow1Of (a.attachSupsubCore ctx nucleus ty none
          (some bm))).map (fun row => row.data.right) =
        some ((1 / 2) / ctx.fontConstants.ptPerEm /
          (textstyleSizeMultiplier * ctx.mathstyle.sizeMultiplier))
    ∧ (scriptRow1Of (a.attachSupsubCore ctx nucleus ty none
          (some bm))).map (fun row => row.data.left) =
        some (if a.isCharacterBox then -nucleus.italic
          else bm.data.left) := by
  unfold Atom.attachSupsubCore
  cases hcb : a.isCharacterBox <;> cases hc : a.caret <;>
    simp only [hcb, hc, makeVlistShift, Span.setChild0Right,
      Span.setChild0Left, makeSpanList, scriptRow1Of, subVshiftOf,
      Span.withData, Span.children, Span.vshift, Span.data,
      subShiftBase, Bool.not_false, Bool.not_true, Bool.false_eq_true,
      Bool.true_eq_false, if_true, if_false, eq_self_iff_true,
      List.get?, List.head?, Option.bind, Option.map, Option.toList,
      ite_true, ite_false, Option.some.injEq] <;>
    exact ⟨trivial, trivial, trivial⟩

set_option maxHeartbeats 2000000 in
/-- Rule 18e's attachment result, projected: the two rows' final
shifts. -/
theorem rule18e_eval (ctx : Context) (a : Atom) (nucleus : Span)
    (ty : AtomType) (sm bm : Span) :
    supVshiftOf (a.attachSupsubCore ctx nucleus ty (some sm)
        (some bm)) = some (-supShiftFinal ctx a nucleus sm bm)
    ∧ subVshiftOf (a.attachSupsubCore ctx nucleus ty (some sm)
        (some bm)) = some (subShiftFinal ctx a nucleus sm bm) := by
  unfold Atom.attachSupsubCore supShiftFinal subShiftFinal psiOf
    subShiftGapOf gap18e subShift18e supShift18e minSupShiftOf
    supShiftBase subShiftBase
  cases hc : a.caret <;> cases hex : a.isExtensibleSymbol <;>
    simp only [hc, hex, makeVlistIndividualShift, Span.setChild0Left,
      makeSpanList, scriptRow1Of, scriptRow2Of, subVshiftOf,
      supVshiftOf, Span.withData, Span.children, Span.vshift,
      Span.data, Bool.not_false, Bool.not_true, Bool.false_eq_true,
      Bool.true_eq_false, if_true, if_false, eq_self_iff_true,
      List.get?, List.head?, Option.bind, Option.map, Option.toList,
      Option.some.injEq, List.map_cons, List.map_nil] <;>
    split_ifs <;>
    exact ⟨by trivial, by trivial⟩

/-- Claim C9: `hasEmptyBranch(name)` is true iff the branch is absent
or holds only the `'first'` sentinel, and is never true for a branch
with two or more entries (the sentinel-headed shape of a present branch
is the tree well-formedness invariant the source asserts). -/
theorem c9_hasEmptyBranch (a : Atom) (b : BranchName)
    (hwf : ∀ l, a.branch b = some l →
      ∃ f rest, l = f :: rest ∧ f.type = .first) :
    (a.hasEmptyBranch b = true ↔
      (a.branch b = none ∨
        ∃ f, a.branch b = some [f] ∧ f.type = .first))
    ∧ (∀ l, a.branch b = some l → 2 ≤ l.length →
        a.hasEmptyBranch b = false) := by
  constructor
  · cases hb : a.branch b with
    | none => simp [Atom.hasEmptyBranch, hb]
    | some l =>
      obtain ⟨f, rest, hl, hf⟩ := hwf l hb
      subst hl
      constructor
      · intro h
        simp only [Atom.hasEmptyBranch, hb] at h
        cases rest with
        | nil => exact Or.inr ⟨f, rfl, hf⟩
        | cons x xs => simp at h
      · intro h'
        simp only [Atom.hasEmptyBranch, hb]
        rcases h' with hnone | ⟨f', hl', _⟩
        · exact absurd hnone (by simp)
        · injection hl' with hl''
          simp [hl'']
  · intro l hl hlen
    simp only [Atom.hasEmptyBranch, hl]
    have : l.length ≠ 1 := by omega
    simpa using this

/-- Claim C9 witness: a branch holding only the sentinel is empty. -/
theorem c9_witness :
    (∀ l, atomSupFirst.branch .superscript = some l →
      ∃ f rest, l = f :: rest ∧ f.type = .first)
    ∧ (atomSupFirst.hasEmptyBranch .superscript = true ↔
        (atomSupFirst.branch .superscript = none ∨
          ∃ f, atomSupFirst.branch .superscript = some [f] ∧
            f.type = .first)) := by
  have hwf : ∀ l, atomSupFirst.branch .superscript = some l →
      ∃ f rest, l = f :: rest ∧ f.type = .first := by
    intro l hl
    have hl' : some [atomFirst] = some l := hl
    injection hl' with h
    exact ⟨atomFirst, [], h.symm, rfl⟩
  exact ⟨hwf, (c9_hasEmptyBranch atomSupFirst .superscript hwf).1⟩

/-- Claim C8: serialization of a node carrying verbatim source text
returns that text unchanged when macro expansion is not requested; with
`expandMacro` set, the fast path is bypassed and the per-kind emitter
(which recurses into the children) runs instead. -/
theorem c8_verbatim_fast_path (n : ℕ) (options : ToLatexOptions)
    (a : Atom) (s : String) (hl : a.latex = some s) :
    (options.expandMacro = false → toLatexS (n + 1) options a = s)
    ∧ (options.expandMacro = true →
        toLatexS (n + 1) options a =
          a.toLatexOneWith (toLatexS n) options) := by
  constructor
  · intro he
    simp [toLatexS, toLatexDispatchWith, he, hl]
  · intro he
    simp [toLatexS, toLatexDispatchWith, he, hl]

/-- Claim C8 witness: a node with verbatim text `"\xyz "`, command
`"\foo"` and body `x` serializes verbatim without expansion, and to the
recursively computed `"\foo{x}"` under expansion. -/
theorem c8_verbatim_fast_path_witness :
    atomVerb.latex = some "\\xyz "
    ∧ toLatexS 3 ⟨false⟩ atomVerb = "\\xyz "
    ∧ toLatexS 3 ⟨true⟩ atomVerb = "\\foo\x7bx\x7d"
    ∧ "\\xyz " ≠ "\\foo\x7bx\x7d" :=
  ⟨rfl,
   (c8_verbatim_fast_path 2 ⟨false⟩ atomVerb "\\xyz " rfl).1 rfl,
   ((c8_verbatim_fast_path 2 ⟨true⟩ atomVerb "\\xyz " rfl).2 rfl).trans
     (by decide),
   by decide⟩

/-- Claim C3: the sibling-list render entry point returns the absence
marker on an absent input, an empty box list (never the absence marker)
on an empty input, and the absence marker (never an empty list) on a
non-empty input whose nodes collectively produce no boxes. -/
theorem c3_render_entry (r : RenderFn) (ctx : Context)
    (atoms : List Atom) :
    renderListWith r ctx none = none
    ∧ renderListWith r ctx (some []) = some []
    ∧ (atoms ≠ [] →
        (∀ ctx' a, a ∈ atoms → r ctx' a = none ∨ r ctx' a = some []) →
        renderListWith r ctx (some atoms) = none) := by
  refine ⟨rfl, rfl, ?_⟩
  intro hne h
  match atoms, hne with
  | [a], _ =>
    rcases h ctx a (by simp) with hr | hr <;>
      simp [renderListWith, hr]
  | a :: b :: rest, _ =>
    have hloop := renderLoop_no_boxes r
      (match ctx.atomIdsSettings with
       | none => true
       | some s => !s.groupNumbers) (a :: b :: rest) h ctx []
    simp [renderListWith, hloop]

/-- Claim C3 witness: a one-node list rendering to no boxes yields the
absence marker. -/
theorem c3_render_entry_witness :
    ([atomCB] ≠ ([] : List Atom))
    ∧ (∀ ctx' a, a ∈ [atomCB] →
        renderNone ctx' a = none ∨ renderNone ctx' a = some [])
    ∧ renderListWith renderNone (ctxK mtxE) (some [atomCB]) = none := by
  refine ⟨by simp, fun _ _ _ => Or.inl rfl, ?_⟩
  exact (c3_render_entry renderNone (ctxK mtxE) [atomCB]).2.2 (by simp)
    (fun _ _ _ => Or.inl rfl)

set_option maxHeartbeats 1000000 in
/-- Claim C4 counterexample: a node whose superscript branch holds only
the `'first'` sentinel has `hasEmptyBranch` true on both script
branches, yet sup/sub attachment does not return the nucleus unchanged
(the source tests branch *absence*, not emptiness). -/
theorem c4_counterexample :
    atomSupFirst.hasEmptyBranch .superscript = true
    ∧ atomSupFirst.hasEmptyBranch .subscript = true
    ∧ c4result.children.length = 2
    ∧ (mkBox 1 0 0).children.length = 0
    ∧ c4result ≠ mkBox 1 0 0 := by
  refine ⟨rfl, rfl, rfl, rfl, ?_⟩
  intro h
  have h2 : c4result.children.length = (mkBox 1 0 0).children.length :=
    congrArg (fun s => s.children.length) h
  have e1 : c4result.children.length = 2 := rfl
  have e2 : (mkBox 1 0 0).children.length = 0 := rfl
  rw [e1, e2] at h2
  exact absurd h2 (by decide)

/-- Claim C4 amended: sup/sub attachment returns the nucleus box
unchanged exactly when both script branches are *absent*; a branch
holding only the sentinel still produces the sup/sub wrapper. -/
theorem c4_amended (r : RenderFn) (ctx : Context) (a : Atom)
    (nucleus : Span) (ty : AtomType) :
    a.attachSupsubWith r ctx nucleus ty = nucleus ↔
      (a.superscript.isNone && a.subscript.isNone) = true := by
  constructor
  · intro h
    by_contra hb
    unfold Atom.attachSupsubWith at h
    rw [if_neg hb] at h
    unfold Atom.attachSupsubCore at h
    exact makeSpanList_cons_ne _ _ _ _ h
  · intro h
    unfold Atom.attachSupsubWith
    rw [if_pos h]

/-- Claim C10: the default single-node render attaches corner sup/sub
exactly when `limits` is unset: with any `limits` value (including
`'nolimits'`) the nucleus box is returned without attachment, so the
script branches contribute no boxes; with `limits` unset and a script
present, the attachment result is returned. -/
theorem c10_limits_gate (r : RenderFn) (ctx : Context) (a : Atom) :
    (a.limits.isSome = true →
      a.renderOneWith r ctx = some [a.renderNucleus r ctx])
    ∧ (a.limits.isSome = true → a.caret = none →
        a.renderOneWith r ctx = a.withScriptsCleared.renderOneWith r ctx)
    ∧ (a.limits = none → (a.superscript.isSome || a.subscript.isSome) = true →
        a.renderOneWith r ctx =
          some [a.attachSupsubWith r ctx (a.renderNucleus r ctx)
            (a.renderNucleus r ctx).type]) := by
  refine ⟨?_, ?_, ?_⟩
  · intro hl
    have : a.limits.isNone = false := by
      cases hv : a.limits <;> simp [hv] at hl ⊢
    simp [Atom.renderOneWith, this]
  · intro hl hc
    have hn : a.limits.isNone = false := by
      cases hv : a.limits <;> simp [hv] at hl ⊢
    have hn' : a.withScriptsCleared.limits.isNone = false := by
      cases a with
      | mk d ab bo be sup sub => simpa [Atom.withScriptsCleared, Atom.limits,
          Atom.data] using hn
    rw [Atom.renderOneWith, Atom.renderOneWith,
      renderNucleus_withScriptsCleared r ctx a hc]
    simp [hn, hn']
  · intro hl hs
    simp [Atom.renderOneWith, hl, hs]

/-- Claim C10 witness: a node with `limits = 'nolimits'` and a
non-empty superscript renders to its bare nucleus. -/
theorem c10_limits_gate_witness :
    atomNoLimits.limits.isSome = true
    ∧ atomNoLimits.caret = none
    ∧ atomNoLimits.superscript.isSome = true
    ∧ atomNoLimits.renderOneWith (renderA 3) (ctxK mtxE) =
        some [atomNoLimits.renderNucleus (renderA 3) (ctxK mtxE)]
    ∧ atomNoLimits.renderOneWith (renderA 3) (ctxK mtxE) =
        atomNoLimits.withScriptsCleared.renderOneWith (renderA 3) (ctxK mtxE) :=
  ⟨rfl, rfl, rfl,
   (c10_limits_gate (renderA 3) (ctxK mtxE) atomNoLimits).1 rfl,
   (c10_limits_gate (renderA 3) (ctxK mtxE) atomNoLimits).2.1 rfl rfl⟩

/-- Claim C2: with only a subscript present (rule 18b), the subscript
row's shift is `max(base, sub1, height − 0.8·xHeight)` with base
`depth + subDrop` (0 for a character box), script-space is reserved to
the row's right, the row is shifted left by the nucleus italic
correction exactly for a character-box nucleus; and at
`sub1 = 0.3`, `xHeight = 0.4`, subscript height `0.9` the shift is
`max(0.3, 0.9 − 0.32) = 0.58`. -/
theorem c2_rule18b :
    (∀ (ctx : Context) (a : Atom) (nucleus : Span) (ty : AtomType)
        (bm : Span),
      subVshiftOf (a.attachSupsubCore ctx nucleus ty none (some bm)) =
        some (max (max (subShiftBase ctx a nucleus)
            ctx.mathstyle.metrics.sub1)
          (bm.height - (4 / 5) * ctx.mathstyle.metrics.xHeight))
      ∧ (scriptRow1Of (a.attachSupsubCore ctx nucleus ty none
            (some bm))).map (fun row => row.data.right) =
          some ((1 / 2) / ctx.fontConstants.ptPerEm /
            (textstyleSizeMultiplier * ctx.mathstyle.sizeMultiplier))
      ∧ (scriptRow1Of (a.attachSupsubCore ctx nucleus ty none
            (some bm))).map (fun row => row.data.left) =
          some (if a.isCharacterBox then -nucleus.italic
            else bm.data.left))
    ∧ subVshiftOf (atomCB.attachSupsubCore (ctxK mtxB) (mkBox 1 0 0)
        .mord none (some (mkBox (9/10) 0 0))) = some (29/50) := by
  constructor
  · exact rule18b_eval
  · have h := (rule18b_eval (ctxK mtxB) atomCB (mkBox 1 0 0) .mord
      (mkBox (9/10) 0 0)).1
    rw [h]
    have hcb : atomCB.isCharacterBox = true := rfl
    norm_num [subShiftBase, hcb, ctxK, mtxB, styT, mkBox, Span.height,
      Span.data, max_def]

/-- Claim C1 counterexample: with both scripts present and the
minimum-gap correction triggered with positive `psi`, the
implementation *decreases* the subscript's downward shift by `psi`
(the subscript rises together with the superscript), whereas the claim
says the subscript is shifted down by `psi`: at the inputs below the
code's subscript shift is `−7/50` while the claim's is `24/25`. -/
theorem c1_counterexample :
    gap18e (ctxK mtxE) atomCB (mkBox 1 0 0) (mkBox 0 (1/10) 0)
        (mkBox (1/2) 0 0) <
      4 * (ctxK mtxE).fontConstants.defaultRuleThickness
    ∧ 0 < psiOf (ctxK mtxE) atomCB (mkBox 1 0 0) (mkBox 0 (1/10) 0)
    ∧ subVshiftOf (atomCB.attachSupsubCore (ctxK mtxE) (mkBox 1 0 0)
        .mord (some (mkBox 0 (1/10) 0)) (some (mkBox (1/2) 0 0))) =
      some (-(7/50))
    ∧ specSubShiftHug (ctxK mtxE) atomCB (mkBox 1 0 0)
        (mkBox 0 (1/10) 0) (mkBox (1/2) 0 0) = 24/25
    ∧ ¬ subVshiftOf (atomCB.attachSupsubCore (ctxK mtxE) (mkBox 1 0 0)
        .mord (some (mkBox 0 (1/10) 0)) (some (mkBox (1/2) 0 0))) =
      some (specSubShiftHug (ctxK mtxE) atomCB (mkBox 1 0 0)
        (mkBox 0 (1/10) 0) (mkBox (1/2) 0 0)) := by
  have hcb : atomCB.isCharacterBox = true := rfl
  have hTD : (StyleKind.T = StyleKind.D) = False := by simp
  have h3 : subVshiftOf (atomCB.attachSupsubCore (ctxK mtxE)
      (mkBox 1 0 0) .mord (some (mkBox 0 (1/10) 0))
      (some (mkBox (1/2) 0 0))) = some (-(7/50)) := by
    rw [(rule18e_eval (ctxK mtxE) atomCB (mkBox 1 0 0) .mord
      (mkBox 0 (1/10) 0) (mkBox (1/2) 0 0)).2]
    norm_num [subShiftFinal, gap18e, supShift18e, supShiftBase,
      minSupShiftOf, subShift18e, subShiftBase, subShiftGapOf, psiOf,
      hcb, hTD, ctxK, mtxE, styT, fontK, mkBox, Span.height,
      Span.depth, Span.data, Mathstyle.isDisplaystyle, max_def]
  have h4 : specSubShiftHug (ctxK mtxE) atomCB (mkBox 1 0 0)
      (mkBox 0 (1/10) 0) (mkBox (1/2) 0 0) = 24/25 := by
    norm_num [specSubShiftHug, subShiftGapOf, psiOf, supShift18e,
      supShiftBase, minSupShiftOf, hcb, ctxK, mtxE, styT, fontK, mkBox,
      Span.height, Span.depth, Span.data, Mathstyle.isDisplaystyle, hTD,
      max_def]
  refine ⟨?_, ?_, h3, h4, ?_⟩
  · norm_num [gap18e, supShift18e, supShiftBase, minSupShiftOf,
      subShift18e, subShiftBase, hcb, ctxK, mtxE, styT, fontK, mkBox,
      Span.height, Span.depth, Span.data, Mathstyle.isDisplaystyle, hTD,
      max_def]
  · norm_num [psiOf, supShift18e, supShiftBase, minSupShiftOf, hcb,
      hTD, ctxK, mtxE, styT, fontK, mkBox, Span.height, Span.depth,
      Span.data, Mathstyle.isDisplaystyle, max_def]
  · rw [h3, h4]
    norm_num

/-- Claim C1 amended (rule 18e): the superscript shift is
`max(base, minimum, sup-depth + xHeight/4)` and the subscript shift
`max(base, sub2)`; when the clearance is below four rule thicknesses
the subscript shift is recomputed so the clearance is exactly that
minimum, and then, when `psi = 0.8·xHeight − (supShift − sup-depth)`
is positive, the superscript shift is increased and the subscript
shift *decreased* by `psi` (both scripts rise, keeping the minimum
clearance). -/
theorem c1_amended (ctx : Context) (a : Atom) (nucleus : Span)
    (ty : AtomType) (sm bm : Span) :
    (¬ gap18e ctx a nucleus sm bm <
        4 * ctx.fontConstants.defaultRuleThickness →
      supVshiftOf (a.attachSupsubCore ctx nucleus ty (some sm)
          (some bm)) = some (-(supShift18e ctx a nucleus sm))
      ∧ subVshiftOf (a.attachSupsubCore ctx nucleus ty (some sm)
          (some bm)) = some (subShift18e ctx a nucleus))
    ∧ (gap18e ctx a nucleus sm bm <
        4 * ctx.fontConstants.defaultRuleThickness →
      (supShift18e ctx a nucleus sm - sm.depth -
        (bm.height - subShiftGapOf ctx a nucleus sm bm) =
          4 * ctx.fontConstants.defaultRuleThickness)
      ∧ (0 < psiOf ctx a nucleus sm →
          supVshiftOf (a.attachSupsubCore ctx nucleus ty (some sm)
              (some bm)) =
            some (-(supShift18e ctx a nucleus sm +
              psiOf ctx a nucleus sm))
          ∧ subVshiftOf (a.attachSupsubCore ctx nucleus ty (some sm)
              (some bm)) =
            some (subShiftGapOf ctx a nucleus sm bm -
              psiOf ctx a nucleus sm))
      ∧ (¬ 0 < psiOf ctx a nucleus sm →
          supVshiftOf (a.attachSupsubCore ctx nucleus ty (some sm)
              (some bm)) = some (-(supShift18e ctx a nucleus sm))
          ∧ subVshiftOf (a.attachSupsubCore ctx nucleus ty (some sm)
              (some bm)) =
            some (subShiftGapOf ctx a nucleus sm bm))) := by
  have he := rule18e_eval ctx a nucleus ty sm bm
  constructor
  · intro hgap
    refine ⟨?_, ?_⟩
    · rw [he.1]; simp [supShiftFinal, if_neg hgap]
    · rw [he.2]; simp [subShiftFinal, if_neg hgap]
  · intro hgap
    refine ⟨by simp only [subShiftGapOf]; ring, ?_, ?_⟩
    · intro hpsi
      refine ⟨?_, ?_⟩
      · rw [he.1]; simp [supShiftFinal, if_pos hgap, if_pos hpsi]
      · rw [he.2]; simp [subShiftFinal, if_pos hgap, if_pos hpsi]
    · intro hpsi
      refine ⟨?_, ?_⟩
      · rw [he.1]; simp [supShiftFinal, if_pos hgap, if_neg hpsi]
      · rw [he.2]; simp [subShiftFinal, if_pos hgap, if_neg hpsi]

/-- Claim C1 witness: the amended rule at the counterexample's inputs:
gap correction triggered, `psi = 11/20 > 0`, final subscript shift
`41/100 − 11/20 = −7/50`. -/
theorem c1_amended_witness :
    gap18e (ctxK mtxE) atomCB (mkBox 1 0 0) (mkBox 0 (1/10) 0)
        (mkBox (1/2) 0 0) <
      4 * (ctxK mtxE).fontConstants.defaultRuleThickness
    ∧ 0 < psiOf (ctxK mtxE) atomCB (mkBox 1 0 0) (mkBox 0 (1/10) 0)
    ∧ subVshiftOf (atomCB.attachSupsubCore (ctxK mtxE) (mkBox 1 0 0)
        .mord (some (mkBox 0 (1/10) 0)) (some (mkBox (1/2) 0 0))) =
      some (subShiftGapOf (ctxK mtxE) atomCB (mkBox 1 0 0)
        (mkBox 0 (1/10) 0) (mkBox (1/2) 0 0) -
          psiOf (ctxK mtxE) atomCB (mkBox 1 0 0) (mkBox 0 (1/10) 0)) :=
  by
  have hcb : atomCB.isCharacterBox = true := rfl
  have hTD : (StyleKind.T = StyleKind.D) = False := by simp
  have hgap : gap18e (ctxK mtxE) atomCB (mkBox 1 0 0)
      (mkBox 0 (1/10) 0) (mkBox (1/2) 0 0) <
        4 * (ctxK mtxE).fontConstants.defaultRuleThickness := by
    norm_num [gap18e, supShift18e, supShiftBase, minSupShiftOf,
      subShift18e, subShiftBase, hcb, ctxK, mtxE, styT, fontK, mkBox,
      Span.height, Span.depth, Span.data, Mathstyle.isDisplaystyle, hTD,
      max_def]
  have hpsi : 0 < psiOf (ctxK mtxE) atomCB (mkBox 1 0 0)
      (mkBox 0 (1/10) 0) := by
    norm_num [psiOf, supShift18e, supShiftBase, minSupShiftOf, hcb,
      hTD, ctxK, mtxE, styT, fontK, mkBox, Span.height, Span.depth,
      Span.data, Mathstyle.isDisplaystyle, max_def]
  exact ⟨hgap, hpsi,
    (((c1_amended (ctxK mtxE) atomCB (mkBox 1 0 0) .mord
        (mkBox 0 (1/10) 0) (mkBox (1/2) 0 0)).2 hgap).2.1 hpsi).2⟩

end Render

namespace Mut
theorem MBranches.get_setB (br : MBranches) (b b' : BranchName)
    (l : Option (List AtomId)) :
    (br.setB b l).get b' = if b' = b then l else br.get b' := by
  cases b <;> cases b' <;> simp [MBranches.get, MBranches.setB]

theorem Store.get_set (st : Store) (i : AtomId) (a : MAtom) (j : AtomId) :
    (st.set i a).get j = if j = i then some a else st.get j := rfl

theorem Store.dom_set (st : Store) (i : AtomId) (a : MAtom) :
    (st.set i a).dom = st.dom := rfl

theorem Store.nextId_set (st : Store) (i : AtomId) (a : MAtom) :
    (st.set i a).nextId = st.nextId := rfl

theorem Store.get_modify_ne (st : Store) (i : AtomId) (f : MAtom → MAtom)
    (j : AtomId) (h : j ≠ i) : (st.modify i f).get j = st.get j := by
  unfold Store.modify
  cases hv : st.get i <;> simp [Store.get_set, h]

theorem Store.get_modify_self (st : Store) (i : AtomId) (f : MAtom → MAtom) :
    (st.modify i f).get i =
      match st.get i with
      | some a => some (f a)
      | none => st.get i := by
  unfold Store.modify
  cases hv : st.get i <;> simp [Store.get_set, hv]

theorem Store.dom_modify (st : Store) (i : AtomId) (f : MAtom → MAtom) :
    (st.modify i f).dom = st.dom := by
  unfold Store.modify
  cases st.get i <;> rfl

theorem Store.nextId_modify (st : Store) (i : AtomId) (f : MAtom → MAtom) :
    (st.modify i f).nextId = st.nextId := by
  unfold Store.modify
  cases st.get i <;> rfl

theorem MBranches.get_default (b : BranchName) :
    MBranches.get {} b = none := by
  cases b <;> rfl

theorem parentView_modify (st : Store) (i : AtomId) (f : MAtom → MAtom)
    (hf : ∀ a, (f a).parent = a.parent) (j : AtomId) :
    parentView (st.modify i f) j = parentView st j := by
  by_cases hj : j = i
  · subst hj
    rw [parentView, parentView, Store.get_modify_self]
    cases st.get j <;> simp [hf]
  · rw [parentView, parentView, Store.get_modify_ne _ _ _ _ hj]

theorem ptv_modify (st : Store) (i : AtomId) (f : MAtom → MAtom)
    (hf : ∀ a, (f a).parent = a.parent ∧ (f a).treeBranch = a.treeBranch)
    (j : AtomId) : ptv (st.modify i f) j = ptv st j := by
  by_cases hj : j = i
  · subst hj
    rw [ptv, ptv, Store.get_modify_self]
    cases st.get j with
    | none => rfl
    | some a => simp [(hf a).1, (hf a).2]
  · rw [ptv, ptv, Store.get_modify_ne _ _ _ _ hj]

theorem dirtyFlag_modify (st : Store) (i : AtomId) (f : MAtom → MAtom)
    (hf : ∀ a, (f a).isDirtyF = a.isDirtyF) (j : AtomId) :
    dirtyFlag (st.modify i f) j = dirtyFlag st j := by
  by_cases hj : j = i
  · subst hj
    rw [dirtyFlag, dirtyFlag, Store.get_modify_self]
    cases st.get j <;> simp [hf]
  · rw [dirtyFlag, dirtyFlag, Store.get_modify_ne _ _ _ _ hj]

theorem cachesCleared_modify (st : Store) (i : AtomId) (f : MAtom → MAtom)
    (hf : ∀ a, (f a).childrenCache = a.childrenCache ∧ (f a).latex = a.latex)
    (j : AtomId) : cachesCleared (st.modify i f) j ↔ cachesCleared st j := by
  by_cases hj : j = i
  · subst hj
    unfold cachesCleared
    rw [Store.get_modify_self]
    cases hv : st.get j with
    | none => simp
    | some a =>
      simp only [Option.some.injEq]
      constructor
      · intro h
        intro n hn
        have := h (f a) rfl
        rw [(hf a).1, (hf a).2] at this
        cases hn
        exact this
      · intro h n hn
        have := h a rfl
        cases hn
        rw [(hf a).1, (hf a).2]
        exact this
  · unfold cachesCleared
    rw [Store.get_modify_ne _ _ _ _ hj]

theorem branchList_modify (st : Store) (i : AtomId) (f : MAtom → MAtom)
    (hf : ∀ a, (f a).branches = a.branches) (o : AtomId) (b : BranchName) :
    (st.modify i f).branchList o b = st.branchList o b := by
  by_cases ho : o = i
  · subst ho
    unfold Store.branchList
    rw [Store.get_modify_self]
    cases st.get o <;> simp [hf]
  · unfold Store.branchList
    rw [Store.get_modify_ne _ _ _ _ ho]

theorem isSome_modify (st : Store) (i : AtomId) (f : MAtom → MAtom)
    (j : AtomId) :
    ((st.modify i f).get j).isSome = (st.get j).isSome := by
  by_cases hj : j = i
  · subst hj
    rw [Store.get_modify_self]
    cases st.get j <;> rfl
  · rw [Store.get_modify_ne _ _ _ _ hj]

theorem parentView_writeBranch (st : Store) (i : AtomId) (b : BranchName)
    (l : Option (List AtomId)) (j : AtomId) :
    parentView (st.writeBranch i b l) j = parentView st j := by
  unfold Store.writeBranch
  apply parentView_modify
  intro a
  rfl

theorem ptv_writeBranch (st : Store) (i : AtomId) (b : BranchName)
    (l : Option (List AtomId)) (j : AtomId) :
    ptv (st.writeBranch i b l) j = ptv st j := by
  unfold Store.writeBranch
  apply ptv_modify
  intro a
  exact ⟨rfl, rfl⟩

theorem dirtyFlag_writeBranch (st : Store) (i : AtomId) (b : BranchName)
    (l : Option (List AtomId)) (j : AtomId) :
    dirtyFlag (st.writeBranch i b l) j = dirtyFlag st j := by
  unfold Store.writeBranch
  apply dirtyFlag_modify
  intro a
  rfl

theorem cachesCleared_writeBranch (st : Store) (i : AtomId)
    (b : BranchName) (l : Option (List AtomId)) (j : AtomId) :
    cachesCleared (st.writeBranch i b l) j ↔ cachesCleared st j := by
  unfold Store.writeBranch
  apply cachesCleared_modify
  intro a
  exact ⟨rfl, rfl⟩

theorem isSome_writeBranch (st : Store) (i : AtomId) (b : BranchName)
    (l : Option (List AtomId)) (j : AtomId) :
    ((st.writeBranch i b l).get j).isSome = (st.get j).isSome := by
  unfold Store.writeBranch
  apply isSome_modify

theorem dom_writeBranch (st : Store) (i : AtomId) (b : BranchName)
    (l : Option (List AtomId)) : (st.writeBranch i b l).dom = st.dom := by
  unfold Store.writeBranch
  apply Store.dom_modify

theorem nextId_writeBranch (st : Store) (i : AtomId) (b : BranchName)
    (l : Option (List AtomId)) :
    (st.writeBranch i b l).nextId = st.nextId := by
  unfold Store.writeBranch
  apply Store.nextId_modify

theorem branchList_get_eq (st : Store) (o : AtomId) (a : MAtom)
    (ha : st.get o = some a) (b : BranchName) :
    st.branchList o b = (a.branches.getD {}).get b := by
  unfold Store.branchList
  rw [ha]
  cases hbr : a.branches with
  | none => simp [hbr, Option.getD, MBranches.get_default]
  | some br => simp [hbr, Option.getD]

theorem branchList_writeBranch_self (st : Store) (i : AtomId)
    (a : MAtom) (ha : st.get i = some a) (b b' : BranchName)
    (l : Option (List AtomId)) :
    (st.writeBranch i b l).branchList i b' =
      if b' = b then l else st.branchList i b' := by
  have hg : (st.writeBranch i b l).get i =
      some { a with branches := some ((a.branches.getD {}).setB b l) } := by
    unfold Store.writeBranch
    rw [Store.get_modify_self, ha]
  rw [branchList_get_eq _ _ _ hg, branchList_get_eq _ _ _ ha]
  simp [Option.getD, MBranches.get_setB]

theorem branchList_writeBranch_ne (st : Store) (i : AtomId)
    (b : BranchName) (l : Option (List AtomId)) (o : AtomId)
    (ho : o ≠ i) (b' : BranchName) :
    (st.writeBranch i b l).branchList o b' = st.branchList o b' := by
  unfold Store.branchList Store.writeBranch
  rw [Store.get_modify_ne _ _ _ _ ho]

theorem writeBranch_of_none (st : Store) (i : AtomId) (b : BranchName)
    (l : Option (List AtomId)) (h : st.get i = none) :
    st.writeBranch i b l = st := by
  unfold Store.writeBranch Store.modify
  rw [h]

theorem parentView_reparent_ne (st : Store) (c p : AtomId)
    (b : BranchName) (j : AtomId) (hj : j ≠ c) :
    parentView (reparent st c p b) j = parentView st j := by
  unfold reparent
  rw [parentView, parentView, Store.get_modify_ne _ _ _ _ hj]

theorem parentView_reparent_self (st : Store) (c p : AtomId)
    (b : BranchName) (n : MAtom) (hn : st.get c = some n) :
    parentView (reparent st c p b) c = some (some p) := by
  unfold reparent
  rw [parentView, Store.get_modify_self, hn]
  rfl

theorem ptv_reparent_ne (st : Store) (c p : AtomId) (b : BranchName)
    (j : AtomId) (hj : j ≠ c) :
    ptv (reparent st c p b) j = ptv st j := by
  unfold reparent
  rw [ptv, ptv, Store.get_modify_ne _ _ _ _ hj]

theorem ptv_reparent_self (st : Store) (c p : AtomId) (b : BranchName)
    (n : MAtom) (hn : st.get c = some n) :
    ptv (reparent st c p b) c = some (some p, some b) := by
  unfold reparent
  rw [ptv, Store.get_modify_self, hn]
  rfl

theorem dirtyFlag_reparent (st : Store) (c p : AtomId) (b : BranchName)
    (j : AtomId) :
    dirtyFlag (reparent st c p b) j = dirtyFlag st j := by
  unfold reparent
  apply dirtyFlag_modify
  intro a
  rfl

theorem cachesCleared_reparent (st : Store) (c p : AtomId)
    (b : BranchName) (j : AtomId) :
    cachesCleared (reparent st c p b) j ↔ cachesCleared st j := by
  unfold reparent
  apply cachesCleared_modify
  intro a
  exact ⟨rfl, rfl⟩

theorem branchList_reparent (st : Store) (c p : AtomId) (b : BranchName)
    (o : AtomId) (b' : BranchName) :
    (reparent st c p b).branchList o b' = st.branchList o b' := by
  unfold reparent
  apply branchList_modify
  intro a
  rfl

theorem isSome_reparent (st : Store) (c p : AtomId) (b : BranchName)
    (j : AtomId) :
    ((reparent st c p b).get j).isSome = (st.get j).isSome := by
  unfold reparent
  apply isSome_modify

theorem dom_reparent (st : Store) (c p : AtomId) (b : BranchName) :
    (reparent st c p b).dom = st.dom := by
  unfold reparent
  apply Store.dom_modify

theorem nextId_reparent (st : Store) (c p : AtomId) (b : BranchName) :
    (reparent st c p b).nextId = st.nextId := by
  unfold reparent
  apply Store.nextId_modify

theorem parentView_unparent_ne (st : Store) (c j : AtomId) (hj : j ≠ c) :
    parentView (unparent st c) j = parentView st j := by
  unfold unparent
  rw [parentView, parentView, Store.get_modify_ne _ _ _ _ hj]

theorem dirtyFlag_unparent (st : Store) (c j : AtomId) :
    dirtyFlag (unparent st c) j = dirtyFlag st j := by
  unfold unparent
  apply dirtyFlag_modify
  intro a
  rfl

theorem cachesCleared_unparent (st : Store) (c j : AtomId) :
    cachesCleared (unparent st c) j ↔ cachesCleared st j := by
  unfold unparent
  apply cachesCleared_modify
  intro a
  exact ⟨rfl, rfl⟩

theorem branchList_unparent (st : Store) (c : AtomId) (o : AtomId)
    (b' : BranchName) :
    (unparent st c).branchList o b' = st.branchList o b' := by
  unfold unparent
  apply branchList_modify
  intro a
  rfl

theorem dom_unparent (st : Store) (c : AtomId) :
    (unparent st c).dom = st.dom := by
  unfold unparent
  apply Store.dom_modify

theorem nextId_unparent (st : Store) (c : AtomId) :
    (unparent st c).nextId = st.nextId := by
  unfold unparent
  apply Store.nextId_modify

theorem get_alloc (st : Store) (a : MAtom) (j : AtomId) :
    ((st.alloc a).1).get j = if j = st.nextId then some a else st.get j :=
  rfl

theorem dom_alloc (st : Store) (a : MAtom) :
    ((st.alloc a).1).dom = st.dom ++ [st.nextId] := rfl

theorem nextId_alloc (st : Store) (a : MAtom) :
    ((st.alloc a).1).nextId = st.nextId + 1 := rfl

theorem snd_alloc (st : Store) (a : MAtom) : (st.alloc a).2 = st.nextId :=
  rfl

theorem markedChain_congr (st st' : Store)
    (hpv : ∀ j, parentView st' j = parentView st j) :
    ∀ (f : ℕ) (p : Option AtomId),
      markedChain st' f p = markedChain st f p := by
  intro f
  induction f with
  | zero => intro p; cases p <;> rfl
  | succ n ih =>
    intro p
    cases p with
    | none => rfl
    | some q =>
      rw [markedChain, markedChain, hpv q]
      cases parentView st q with
      | none => rfl
      | some par =>
        show q :: markedChain st' n par = q :: markedChain st n par
        rw [ih par]

theorem chainClosed_congr (st st' : Store)
    (hpv : ∀ j, parentView st' j = parentView st j) :
    ∀ (f : ℕ) (p : Option AtomId),
      chainClosed st' f p = chainClosed st f p := by
  intro f
  induction f with
  | zero => intro p; cases p <;> rfl
  | succ n ih =>
    intro p
    cases p with
    | none => rfl
    | some q =>
      rw [chainClosed, chainClosed, hpv q]
      cases parentView st q with
      | none => rfl
      | some par =>
        show chainClosed st' n par = chainClosed st n par
        rw [ih par]

theorem markedChain_mono (st : Store) :
    ∀ (f : ℕ) (p : Option AtomId), chainClosed st f p = true →
      ∀ f', f ≤ f' → markedChain st f' p = markedChain st f p ∧
        chainClosed st f' p = true := by
  intro f
  induction f with
  | zero =>
    intro p hc f' _
    cases p with
    | none =>
      constructor
      · cases f' <;> rfl
      · cases f' <;> rfl
    | some q => simp [chainClosed] at hc
  | succ n ih =>
    intro p hc f' hf
    cases p with
    | none =>
      constructor
      · cases f' <;> rfl
      · cases f' <;> rfl
    | some q =>
      rw [chainClosed] at hc
      cases hpq : parentView st q with
      | none => rw [hpq] at hc; exact absurd hc (by simp)
      | some par =>
        rw [hpq] at hc
        obtain ⟨f'', rfl⟩ : ∃ f'', f' = f'' + 1 :=
          ⟨f' - 1, by omega⟩
        have hn : n ≤ f'' := by omega
        obtain ⟨h1, h2⟩ := ih par hc f'' hn
        constructor
        · rw [markedChain, markedChain, hpq]
          show q :: markedChain st f'' par = q :: markedChain st n par
          rw [h1]
        · rw [chainClosed, hpq]
          exact h2

theorem mad_get_cases (st : Store) :
    ∀ (f : ℕ) (p : Option AtomId) (j : AtomId),
      (markAncestorsDirty st f p).get j = st.get j ∨
      ∃ n, st.get j = some n ∧ (markAncestorsDirty st f p).get j =
        some { n with
                isDirtyF := true
                childrenCache := none
                latex := none } := by
  intro f
  induction f generalizing st with
  | zero => intro p j; cases p <;> exact Or.inl rfl
  | succ n ih =>
    intro p j
    cases p with
    | none => exact Or.inl rfl
    | some q =>
      rw [markAncestorsDirty]
      cases hq : st.get q with
      | none => exact Or.inl rfl
      | some node =>
        set st1 := st.set q { node with
          isDirtyF := true
          childrenCache := none
          latex := none } with hst1
        rcases ih st1 node.parent j with h | ⟨n1, hn1, hres⟩
        · rw [h, hst1, Store.get_set]
          by_cases hj : j = q
          · subst hj
            exact Or.inr ⟨node, hq, by simp⟩
          · simp [hj]
        · rw [hst1, Store.get_set] at hn1
          by_cases hj : j = q
          · subst hj
            simp at hn1
            refine Or.inr ⟨node, hq, ?_⟩
            rw [hres, ← hn1]
          · simp [hj] at hn1
            exact Or.inr ⟨n1, hn1, hres⟩

theorem mad_parentView (st : Store) (f : ℕ) (p : Option AtomId)
    (j : AtomId) :
    parentView (markAncestorsDirty st f p) j = parentView st j := by
  rcases mad_get_cases st f p j with h | ⟨n, hn, hres⟩
  · rw [parentView, parentView, h]
  · rw [parentView, parentView, hn, hres]
    rfl

theorem mad_ptv (st : Store) (f : ℕ) (p : Option AtomId) (j : AtomId) :
    ptv (markAncestorsDirty st f p) j = ptv st j := by
  rcases mad_get_cases st f p j with h | ⟨n, hn, hres⟩
  · rw [ptv, ptv, h]
  · rw [ptv, ptv, hn, hres]
    rfl

theorem mad_branchList (st : Store) (f : ℕ) (p : Option AtomId)
    (o : AtomId) (b : BranchName) :
    (markAncestorsDirty st f p).branchList o b = st.branchList o b := by
  rcases mad_get_cases st f p o with h | ⟨n, hn, hres⟩
  · unfold Store.branchList
    rw [h]
  · unfold Store.branchList
    rw [hn, hres]

theorem mad_isSome (st : Store) (f : ℕ) (p : Option AtomId) (j : AtomId) :
    ((markAncestorsDirty st f p).get j).isSome = (st.get j).isSome := by
  rcases mad_get_cases st f p j with h | ⟨n, hn, hres⟩
  · rw [h]
  · rw [hn, hres]
    rfl

theorem mad_dom (st : Store) : ∀ (f : ℕ) (p : Option AtomId),
    (markAncestorsDirty st f p).dom = st.dom := by
  intro f
  induction f generalizing st with
  | zero => intro p; cases p <;> rfl
  | succ n ih =>
    intro p
    cases p with
    | none => rfl
    | some q =>
      rw [markAncestorsDirty]
      cases hq : st.get q with
      | none => rfl
      | some node => rw [ih]; rfl

theorem mad_nextId (st : Store) : ∀ (f : ℕ) (p : Option AtomId),
    (markAncestorsDirty st f p).nextId = st.nextId := by
  intro f
  induction f generalizing st with
  | zero => intro p; cases p <;> rfl
  | succ n ih =>
    intro p
    cases p with
    | none => rfl
    | some q =>
      rw [markAncestorsDirty]
      cases hq : st.get q with
      | none => rfl
      | some node => rw [ih]; rfl

theorem parentView_set_preserve (st : Store) (q : AtomId) (node a : MAtom)
    (hq : st.get q = some node) (ha : a.parent = node.parent)
    (j : AtomId) : parentView (st.set q a) j = parentView st j := by
  by_cases hj : j = q
  · subst hj
    rw [parentView, parentView, Store.get_set, hq]
    simp [ha]
  · rw [parentView, parentView, Store.get_set]
    simp [hj]

theorem mad_get_notMem (st : Store) : ∀ (f : ℕ) (p : Option AtomId)
    (j : AtomId), j ∉ markedChain st f p →
    (markAncestorsDirty st f p).get j = st.get j := by
  intro f
  induction f generalizing st with
  | zero => intro p j _; cases p <;> rfl
  | succ n ih =>
    intro p j hj
    cases p with
    | none => rfl
    | some q =>
      rw [markAncestorsDirty]
      cases hq : st.get q with
      | none => rfl
      | some node =>
        have hpq : parentView st q = some node.parent := by
          rw [parentView, hq]; rfl
        rw [markedChain, hpq] at hj
        have hj' : j ≠ q ∧ j ∉ markedChain st n node.parent := by
          constructor
          · intro h; exact hj (h ▸ List.mem_cons_self _ _)
          · intro h; exact hj (List.mem_cons_of_mem _ h)
        have hpv : ∀ k, parentView (st.set q { node with
            isDirtyF := true
            childrenCache := none
            latex := none }) k = parentView st k :=
          parentView_set_preserve st q node _ hq rfl
        have hch : markedChain (st.set q { node with
            isDirtyF := true
            childrenCache := none
            latex := none }) n node.parent =
            markedChain st n node.parent :=
          markedChain_congr st _ hpv n node.parent
        rw [ih _ _ _ (hch ▸ hj'.2), Store.get_set]
        simp [hj'.1]

theorem mad_marks (st : Store) : ∀ (f : ℕ) (p : Option AtomId)
    (j : AtomId), j ∈ markedChain st f p →
    dirtyFlag (markAncestorsDirty st f p) j = true ∧
      cachesCleared (markAncestorsDirty st f p) j := by
  intro f
  induction f generalizing st with
  | zero =>
    intro p j hj
    cases p <;> simp [markedChain] at hj
  | succ n ih =>
    intro p j hj
    cases p with
    | none => simp [markedChain] at hj
    | some q =>
      cases hq : st.get q with
      | none =>
        rw [markedChain] at hj
        rw [parentView, hq] at hj
        simp at hj
      | some node =>
        have hpq : parentView st q = some node.parent := by
          rw [parentView, hq]; rfl
        rw [markedChain, hpq] at hj
        rw [markAncestorsDirty, hq]
        set a1 : MAtom := { node with
          isDirtyF := true
          childrenCache := none
          latex := none } with ha1
        have hpv : ∀ k, parentView (st.set q a1) k = parentView st k :=
          parentView_set_preserve st q node _ hq rfl
        have hch : markedChain (st.set q a1) n node.parent =
            markedChain st n node.parent :=
          markedChain_congr st _ hpv n node.parent
        by_cases hjt : j ∈ markedChain st n node.parent
        · exact ih (st.set q a1) node.parent j (hch ▸ hjt)
        · have hjq : j = q := by
            rcases List.mem_cons.mp hj with h | h
            · exact h
            · exact absurd h hjt
          subst hjq
          have hget : (markAncestorsDirty (st.set j a1) n
              node.parent).get j = (st.set j a1).get j :=
            mad_get_notMem _ _ _ _ (hch ▸ hjt)
          rw [Store.get_set] at hget
          simp only [eq_self_iff_true, if_true, ite_true] at hget
          constructor
          · unfold dirtyFlag
            rw [hget]
          · intro m hm
            rw [hget] at hm
            cases hm
            exact ⟨rfl, rfl⟩

theorem markDirty_get_cases (st : Store) (i j : AtomId) :
    (st.markDirty i).get j = st.get j ∨
    ∃ n, st.get j = some n ∧ (st.markDirty i).get j =
      some { n with
              isDirtyF := true
              childrenCache := none
              latex := none } := by
  unfold Store.markDirty
  cases hq : st.get i with
  | none => exact Or.inl rfl
  | some node =>
    set a1 : MAtom := { node with
      isDirtyF := true
      childrenCache := none
      latex := none } with ha1
    rcases mad_get_cases (st.set i a1) _ node.parent j with h | ⟨n, hn, hres⟩
    · rw [h, Store.get_set]
      by_cases hj : j = i
      · subst hj
        refine Or.inr ⟨node, hq, ?_⟩
        simp
      · simp [hj]
    · rw [Store.get_set] at hn
      by_cases hj : j = i
      · subst hj
        simp at hn
        refine Or.inr ⟨node, hq, ?_⟩
        rw [hres, ← hn]
      · simp [hj] at hn
        exact Or.inr ⟨n, hn, hres⟩

theorem markDirty_parentView (st : Store) (i j : AtomId) :
    parentView (st.markDirty i) j = parentView st j := by
  rcases markDirty_get_cases st i j with h | ⟨n, hn, hres⟩
  · rw [parentView, parentView, h]
  · rw [parentView, parentView, hn, hres]
    rfl

theorem markDirty_ptv (st : Store) (i j : AtomId) :
    ptv (st.markDirty i) j = ptv st j := by
  rcases markDirty_get_cases st i j with h | ⟨n, hn, hres⟩
  · rw [ptv, ptv, h]
  · rw [ptv, ptv, hn, hres]
    rfl

theorem markDirty_branchList (st : Store) (i : AtomId) (o : AtomId)
    (b : BranchName) :
    (st.markDirty i).branchList o b = st.branchList o b := by
  rcases markDirty_get_cases st i o with h | ⟨n, hn, hres⟩
  · unfold Store.branchList
    rw [h]
  · unfold Store.branchList
    rw [hn, hres]

theorem markDirty_isSome (st : Store) (i j : AtomId) :
    ((st.markDirty i).get j).isSome = (st.get j).isSome := by
  rcases markDirty_get_cases st i j with h | ⟨n, hn, hres⟩
  · rw [h]
  · rw [hn, hres]
    rfl

theorem markDirty_dom (st : Store) (i : AtomId) :
    (st.markDirty i).dom = st.dom := by
  unfold Store.markDirty
  cases hq : st.get i with
  | none => rfl
  | some node => rw [mad_dom]; rfl

theorem markDirty_nextId (st : Store) (i : AtomId) :
    (st.markDirty i).nextId = st.nextId := by
  unfold Store.markDirty
  cases hq : st.get i with
  | none => rfl
  | some node => rw [mad_nextId]; rfl

theorem markDirty_marks (st : Store) (i : AtomId) :
    ∀ j ∈ st.dirtyChain i, dirtyFlag (st.markDirty i) j = true ∧
      cachesCleared (st.markDirty i) j := by
  intro j hj
  unfold Store.dirtyChain at hj
  unfold Store.markDirty
  cases hq : st.get i with
  | none =>
    rw [parentView, hq] at hj
    simp at hj
  | some node =>
    have hpq : parentView st i = some node.parent := by
      rw [parentView, hq]; rfl
    rw [hpq] at hj
    set a1 : MAtom := { node with
      isDirtyF := true
      childrenCache := none
      latex := none } with ha1
    show dirtyFlag (markAncestorsDirty (st.set i a1) st.dom.length
        node.parent) j = true ∧
      cachesCleared (markAncestorsDirty (st.set i a1) st.dom.length
        node.parent) j
    have hpv : ∀ k, parentView (st.set i a1) k = parentView st k :=
      parentView_set_preserve st i node _ hq rfl
    have hch : markedChain (st.set i a1) st.dom.length node.parent =
        markedChain st st.dom.length node.parent :=
      markedChain_congr st _ hpv _ node.parent
    by_cases hjt : j ∈ markedChain st st.dom.length node.parent
    · exact mad_marks (st.set i a1) st.dom.length node.parent j
        (by rw [hch]; exact hjt)
    · have hjq : j = i := by
        rcases List.mem_cons.mp hj with h | h
        · exact h
        · exact absurd h hjt
      subst hjq
      have hget : (markAncestorsDirty (st.set j a1) st.dom.length
          node.parent).get j = (st.set j a1).get j :=
        mad_get_notMem _ _ _ _ (hch ▸ hjt)
      rw [Store.get_set] at hget
      simp only [eq_self_iff_true, if_true, ite_true] at hget
      constructor
      · unfold dirtyFlag
        rw [hget]
      · intro m hm
        rw [hget] at hm
        cases hm
        exact ⟨rfl, rfl⟩

theorem markDirty_get_notMem (st : Store) (i j : AtomId)
    (hj : j ∉ st.dirtyChain i) : (st.markDirty i).get j = st.get j := by
  unfold Store.dirtyChain at hj
  unfold Store.markDirty
  cases hq : st.get i with
  | none => rfl
  | some node =>
    have hpq : parentView st i = some node.parent := by
      rw [parentView, hq]; rfl
    rw [hpq] at hj
    have hj' : j ≠ i ∧ j ∉ markedChain st st.dom.length node.parent := by
      constructor
      · intro h; exact hj (h ▸ List.mem_cons_self _ _)
      · intro h; exact hj (List.mem_cons_of_mem _ h)
    set a1 : MAtom := { node with
      isDirtyF := true
      childrenCache := none
      latex := none } with ha1
    show (markAncestorsDirty (st.set i a1) st.dom.length
        node.parent).get j = st.get j
    have hpv : ∀ k, parentView (st.set i a1) k = parentView st k :=
      parentView_set_preserve st i node _ hq rfl
    have hch : markedChain (st.set i a1) st.dom.length node.parent =
        markedChain st st.dom.length node.parent :=
      markedChain_congr st _ hpv _ node.parent
    rw [mad_get_notMem _ _ _ _ (hch ▸ hj'.2), Store.get_set]
    simp [hj'.1]

theorem markedChain_congr_exist (st st' : Store) :
    ∀ (f : ℕ) (p : Option AtomId), chainClosed st f p = true →
      (∀ j, parentView st j ≠ none → parentView st' j = parentView st j) →
      markedChain st' f p = markedChain st f p ∧
        chainClosed st' f p = true := by
  intro f
  induction f with
  | zero =>
    intro p hc _
    cases p with
    | none => exact ⟨rfl, rfl⟩
    | some q => simp [chainClosed] at hc
  | succ n ih =>
    intro p hc hpv
    cases p with
    | none => exact ⟨rfl, rfl⟩
    | some q =>
      rw [chainClosed] at hc
      cases hpq : parentView st q with
      | none => rw [hpq] at hc; exact absurd hc (by simp)
      | some par =>
        rw [hpq] at hc
        have hq' : parentView st' q = some par := by
          rw [hpv q (by rw [hpq]; simp), hpq]
        obtain ⟨h1, h2⟩ := ih par hc hpv
        constructor
        · rw [markedChain, markedChain, hpq, hq']
          show q :: markedChain st' n par = q :: markedChain st n par
          rw [h1]
        · rw [chainClosed, hq']
          exact h2

theorem isSome_unparent (st : Store) (c j : AtomId) :
    ((unparent st c).get j).isSome = (st.get j).isSome := by
  unfold unparent
  apply isSome_modify

theorem parentView_unparentAll :
    ∀ (cs : List AtomId) (st : Store) (j : AtomId), j ∉ cs →
      parentView (cs.foldl unparent st) j = parentView st j := by
  intro cs
  induction cs with
  | nil => intro st j _; rfl
  | cons c rest ih =>
    intro st j hj
    have hjc : j ≠ c := fun h => hj (by rw [h]; exact List.mem_cons_self _ _)
    have hjr : j ∉ rest := fun h => hj (List.mem_cons_of_mem _ h)
    show parentView (rest.foldl unparent (unparent st c)) j = _
    rw [ih _ j hjr, parentView_unparent_ne _ _ _ hjc]

theorem dirtyFlag_unparentAll :
    ∀ (cs : List AtomId) (st : Store) (j : AtomId),
      dirtyFlag (cs.foldl unparent st) j = dirtyFlag st j := by
  intro cs
  induction cs with
  | nil => intro st j; rfl
  | cons c rest ih =>
    intro st j
    show dirtyFlag (rest.foldl unparent (unparent st c)) j = _
    rw [ih, dirtyFlag_unparent]

theorem cachesCleared_unparentAll :
    ∀ (cs : List AtomId) (st : Store) (j : AtomId),
      cachesCleared (cs.foldl unparent st) j ↔ cachesCleared st j := by
  intro cs
  induction cs with
  | nil => intro st j; exact Iff.rfl
  | cons c rest ih =>
    intro st j
    show cachesCleared (rest.foldl unparent (unparent st c)) j ↔ _
    rw [ih, cachesCleared_unparent]

theorem isSome_unparentAll :
    ∀ (cs : List AtomId) (st : Store) (j : AtomId),
      (((cs.foldl unparent st)).get j).isSome = (st.get j).isSome := by
  intro cs
  induction cs with
  | nil => intro st j; rfl
  | cons c rest ih =>
    intro st j
    show (((rest.foldl unparent (unparent st c))).get j).isSome = _
    rw [ih, isSome_unparent]

theorem dom_unparentAll :
    ∀ (cs : List AtomId) (st : Store),
      (cs.foldl unparent st).dom = st.dom := by
  intro cs
  induction cs with
  | nil => intro st; rfl
  | cons c rest ih =>
    intro st
    show (rest.foldl unparent (unparent st c)).dom = _
    rw [ih, dom_unparent]

theorem nextId_unparentAll :
    ∀ (cs : List AtomId) (st : Store),
      (cs.foldl unparent st).nextId = st.nextId := by
  intro cs
  induction cs with
  | nil => intro st; rfl
  | cons c rest ih =>
    intro st
    show (rest.foldl unparent (unparent st c)).nextId = _
    rw [ih, nextId_unparent]

theorem branchList_unparentAll :
    ∀ (cs : List AtomId) (st : Store) (o : AtomId) (b : BranchName),
      (cs.foldl unparent st).branchList o b = st.branchList o b := by
  intro cs
  induction cs with
  | nil => intro st o b; rfl
  | cons c rest ih =>
    intro st o b
    show (rest.foldl unparent (unparent st c)).branchList o b = _
    rw [ih, branchList_unparent]

theorem dirtyFlag_reparentAll (p : AtomId) (b : BranchName) :
    ∀ (cs : List AtomId) (st : Store) (j : AtomId),
      dirtyFlag (reparentAll st cs p b) j = dirtyFlag st j := by
  intro cs
  induction cs with
  | nil => intro st j; rfl
  | cons c rest ih =>
    intro st j
    show dirtyFlag (reparentAll (reparent st c p b) rest p b) j = _
    rw [ih, dirtyFlag_reparent]

theorem cachesCleared_reparentAll (p : AtomId) (b : BranchName) :
    ∀ (cs : List AtomId) (st : Store) (j : AtomId),
      cachesCleared (reparentAll st cs p b) j ↔ cachesCleared st j := by
  intro cs
  induction cs with
  | nil => intro st j; exact Iff.rfl
  | cons c rest ih =>
    intro st j
    show cachesCleared (reparentAll (reparent st c p b) rest p b) j ↔ _
    rw [ih, cachesCleared_reparent]

theorem branchList_reparentAll (p : AtomId) (b : BranchName) :
    ∀ (cs : List AtomId) (st : Store) (o : AtomId) (b' : BranchName),
      (reparentAll st cs p b).branchList o b' = st.branchList o b' := by
  intro cs
  induction cs with
  | nil => intro st o b'; rfl
  | cons c rest ih =>
    intro st o b'
    show (reparentAll (reparent st c p b) rest p b).branchList o b' = _
    rw [ih, branchList_reparent]

theorem isSome_reparentAll (p : AtomId) (b : BranchName) :
    ∀ (cs : List AtomId) (st : Store) (j : AtomId),
      ((reparentAll st cs p b).get j).isSome = (st.get j).isSome := by
  intro cs
  induction cs with
  | nil => intro st j; rfl
  | cons c rest ih =>
    intro st j
    show ((reparentAll (reparent st c p b) rest p b).get j).isSome = _
    rw [ih, isSome_reparent]

theorem parentView_reparentAll_notMem (p : AtomId) (b : BranchName) :
    ∀ (cs : List AtomId) (st : Store) (j : AtomId), j ∉ cs →
      parentView (reparentAll st cs p b) j = parentView st j := by
  intro cs
  induction cs with
  | nil => intro st j _; rfl
  | cons c rest ih =>
    intro st j hj
    have hjc : j ≠ c := fun h => hj (by rw [h]; exact List.mem_cons_self _ _)
    have hjr : j ∉ rest := fun h => hj (List.mem_cons_of_mem _ h)
    show parentView (reparentAll (reparent st c p b) rest p b) j = _
    rw [ih _ j hjr, parentView_reparent_ne _ _ _ _ _ hjc]

theorem ptv_reparentAll_notMem (p : AtomId) (b : BranchName) :
    ∀ (cs : List AtomId) (st : Store) (j : AtomId), j ∉ cs →
      ptv (reparentAll st cs p b) j = ptv st j := by
  intro cs
  induction cs with
  | nil => intro st j _; rfl
  | cons c rest ih =>
    intro st j hj
    have hjc : j ≠ c := fun h => hj (by rw [h]; exact List.mem_cons_self _ _)
    have hjr : j ∉ rest := fun h => hj (List.mem_cons_of_mem _ h)
    show ptv (reparentAll (reparent st c p b) rest p b) j = _
    rw [ih _ j hjr, ptv_reparent_ne _ _ _ _ _ hjc]

theorem ptv_reparentAll_mem (p : AtomId) (b : BranchName) :
    ∀ (cs : List AtomId) (st : Store) (c : AtomId), c ∈ cs →
      (st.get c).isSome = true →
      ptv (reparentAll st cs p b) c = some (some p, some b) := by
  intro cs
  induction cs with
  | nil => intro st c hc; exact absurd hc (List.not_mem_nil _)
  | cons d rest ih =>
    intro st c hc hsome
    show ptv (reparentAll (reparent st d p b) rest p b) c = _
    by_cases hr : c ∈ rest
    · exact ih _ c hr (by rw [isSome_reparent]; exact hsome)
    · have hcd : c = d := by
        rcases List.mem_cons.mp hc with h | h
        · exact h
        · exact absurd h hr
      subst hcd
      rw [ptv_reparentAll_notMem _ _ rest _ c hr]
      obtain ⟨n, hn⟩ := Option.isSome_iff_exists.mp hsome
      exact ptv_reparent_self st c p b n hn

theorem markedChain_mem_view (st : Store) :
    ∀ (f : ℕ) (p : Option AtomId), chainClosed st f p = true →
      ∀ j ∈ markedChain st f p, ∃ q, parentView st j = some q := by
  intro f
  induction f with
  | zero =>
    intro p hc j hj
    cases p with
    | none => exact absurd hj (List.not_mem_nil _)
    | some q => simp [chainClosed] at hc
  | succ n ih =>
    intro p hc j hj
    cases p with
    | none => exact absurd hj (List.not_mem_nil _)
    | some q =>
      rw [chainClosed] at hc
      cases hpq : parentView st q with
      | none => rw [hpq] at hc; exact absurd hc (by simp)
      | some par =>
        rw [hpq] at hc
        rw [markedChain, hpq] at hj
        rcases List.mem_cons.mp hj with h | h
        · exact ⟨par, h ▸ hpq⟩
        · exact ih par hc j h

theorem markedChain_congr_mem (st cur : Store) :
    ∀ (f : ℕ) (p : Option AtomId), chainClosed st f p = true →
      (∀ j ∈ markedChain st f p, parentView cur j = parentView st j) →
      markedChain cur f p = markedChain st f p ∧
        chainClosed cur f p = true := by
  intro f
  induction f with
  | zero =>
    intro p hc _
    cases p with
    | none => exact ⟨rfl, rfl⟩
    | some q => simp [chainClosed] at hc
  | succ n ih =>
    intro p hc hpv
    cases p with
    | none => exact ⟨rfl, rfl⟩
    | some q =>
      rw [chainClosed] at hc
      cases hpq : parentView st q with
      | none => rw [hpq] at hc; exact absurd hc (by simp)
      | some par =>
        rw [hpq] at hc
        have hq' : parentView cur q = some par := by
          rw [hpv q (by rw [markedChain, hpq]; exact List.mem_cons_self _ _),
            hpq]
        have hpv' : ∀ j ∈ markedChain st n par,
            parentView cur j = parentView st j := by
          intro j hj
          apply hpv
          rw [markedChain, hpq]
          exact List.mem_cons_of_mem _ hj
        obtain ⟨h1, h2⟩ := ih par hc hpv'
        constructor
        · rw [markedChain, markedChain, hpq, hq']
          show q :: markedChain cur n par = q :: markedChain st n par
          rw [h1]
        · rw [chainClosed, hq']
          exact h2

theorem dirtyChain_eq (st : Store) (t : AtomId) (par : Option AtomId)
    (h : parentView st t = some par) :
    st.dirtyChain t = t :: markedChain st st.dom.length par := by
  unfold Store.dirtyChain
  rw [h]

theorem chainClosedAt_eq (st : Store) (t : AtomId) (par : Option AtomId)
    (h : parentView st t = some par) :
    st.chainClosedAt t = chainClosed st st.dom.length par := by
  unfold Store.chainClosedAt
  rw [h]

theorem chainClosedAt_view (st : Store) (t : AtomId)
    (hcl : st.chainClosedAt t = true) :
    ∃ par, parentView st t = some par := by
  unfold Store.chainClosedAt at hcl
  cases hpt : parentView st t with
  | none => rw [hpt] at hcl; exact absurd hcl (by simp)
  | some par => exact ⟨par, rfl⟩

theorem dirtyChain_transport (st cur : Store) (t : AtomId)
    (hcl : st.chainClosedAt t = true)
    (hfuel : st.dom.length ≤ cur.dom.length)
    (hpv : ∀ j ∈ st.dirtyChain t, parentView cur j = parentView st j) :
    cur.dirtyChain t = st.dirtyChain t ∧ cur.chainClosedAt t = true := by
  obtain ⟨par, hpt⟩ := chainClosedAt_view st t hcl
  have hd := dirtyChain_eq st t par hpt
  have hc0 : chainClosed st st.dom.length par = true := by
    rw [← chainClosedAt_eq st t par hpt]
    exact hcl
  have hct : parentView cur t = some par := by
    rw [hpv t (by rw [hd]; exact List.mem_cons_self _ _), hpt]
  have hpv' : ∀ j ∈ markedChain st st.dom.length par,
      parentView cur j = parentView st j := by
    intro j hj
    apply hpv
    rw [hd]
    exact List.mem_cons_of_mem _ hj
  obtain ⟨h1, h2⟩ := markedChain_congr_mem st cur st.dom.length par hc0 hpv'
  obtain ⟨h3, h4⟩ := markedChain_mono cur st.dom.length par h2
    cur.dom.length hfuel
  constructor
  · rw [dirtyChain_eq cur t par hct, hd, h3, h1]
  · rw [chainClosedAt_eq cur t par hct]
    exact h4

theorem dirtyChain_mem_view (st : Store) (t : AtomId)
    (hcl : st.chainClosedAt t = true) :
    ∀ j ∈ st.dirtyChain t, ∃ q, parentView st j = some q := by
  obtain ⟨par, hpt⟩ := chainClosedAt_view st t hcl
  have hc0 : chainClosed st st.dom.length par = true := by
    rw [← chainClosedAt_eq st t par hpt]
    exact hcl
  rw [dirtyChain_eq st t par hpt]
  intro j hj
  rcases List.mem_cons.mp hj with h | h
  · exact ⟨par, h ▸ hpt⟩
  · exact markedChain_mem_view st st.dom.length par hc0 j h

theorem markDirty_dirty_of (st : Store) (i j : AtomId)
    (h : dirtyFlag st j = true) : dirtyFlag (st.markDirty i) j = true := by
  rcases markDirty_get_cases st i j with hc | ⟨n, hn, hres⟩
  · rw [dirtyFlag, hc]; exact h
  · rw [dirtyFlag, hres]

theorem markDirty_cleared_of (st : Store) (i j : AtomId)
    (h : cachesCleared st j) : cachesCleared (st.markDirty i) j := by
  rcases markDirty_get_cases st i j with hc | ⟨n, hn, hres⟩
  · intro m hm
    rw [hc] at hm
    exact h m hm
  · intro m hm
    rw [hres] at hm
    cases hm
    exact ⟨rfl, rfl⟩

theorem markDirty_get_none (st : Store) (i j : AtomId)
    (h : st.get j = none) : (st.markDirty i).get j = none := by
  rcases markDirty_get_cases st i j with hc | ⟨n, hn, _⟩
  · rw [hc]; exact h
  · rw [h] at hn; exact absurd hn (by simp)

theorem parentView_alloc_ne (st : Store) (a : MAtom) (j : AtomId)
    (hj : j ≠ st.nextId) :
    parentView ((st.alloc a).1) j = parentView st j := by
  rw [parentView, parentView, get_alloc, if_neg hj]

theorem ptv_alloc_ne (st : Store) (a : MAtom) (j : AtomId)
    (hj : j ≠ st.nextId) :
    ptv ((st.alloc a).1) j = ptv st j := by
  rw [ptv, ptv, get_alloc, if_neg hj]

theorem branchList_alloc (st : Store) (a : MAtom)
    (ha : a.branches = none) (hfree : st.get st.nextId = none)
    (o : AtomId) (b : BranchName) :
    ((st.alloc a).1).branchList o b = st.branchList o b := by
  by_cases ho : o = st.nextId
  · subst ho
    unfold Store.branchList
    rw [get_alloc, if_pos rfl, hfree]
    show (match a.branches with
      | none => none
      | some br => br.get b) = none
    rw [ha]
  · unfold Store.branchList
    rw [get_alloc, if_neg ho]

theorem eq_none_of_isSome_eq {x y : Option MAtom}
    (h : x.isSome = y.isSome) (hy : y = none) : x = none := by
  subst hy
  cases x with
  | none => rfl
  | some a => simp at h

theorem dirtyFlag_congr (st st' : Store) (j : AtomId)
    (h : st'.get j = st.get j) : dirtyFlag st' j = dirtyFlag st j := by
  rw [dirtyFlag, dirtyFlag, h]

theorem dirtyPre_refl (st : Store) (i : AtomId)
    (hfree : ∀ j, st.nextId ≤ j → st.get j = none) : DirtyPre st i st :=
  ⟨le_refl _, fun _ _ => rfl, fun _ _ => rfl, hfree⟩

theorem dirtyPre_writeBranch (st cur : Store) (i : AtomId)
    (h : DirtyPre st i cur) (o : AtomId) (b : BranchName)
    (l : Option (List AtomId)) : DirtyPre st i (cur.writeBranch o b l) := by
  obtain ⟨h1, h2, h3, h4⟩ := h
  refine ⟨?_, ?_, ?_, ?_⟩
  · rw [dom_writeBranch]
    exact h1
  · intro j hj
    rw [parentView_writeBranch]
    exact h2 j hj
  · intro j hj
    rw [dirtyFlag_writeBranch]
    exact h3 j hj
  · intro j hj
    rw [nextId_writeBranch] at hj
    exact eq_none_of_isSome_eq (isSome_writeBranch cur o b l j) (h4 j hj)

theorem dirtyPre_markDirty (st cur : Store) (i : AtomId)
    (hcl : st.chainClosedAt i = true)
    (h : DirtyPre st i cur) : DirtyPre st i (cur.markDirty i) := by
  obtain ⟨hch, _⟩ := dirtyChain_transport st cur i hcl h.1 h.2.1
  obtain ⟨h1, h2, h3, h4⟩ := h
  refine ⟨?_, ?_, ?_, ?_⟩
  · rw [markDirty_dom]
    exact h1
  · intro j hj
    rw [markDirty_parentView]
    exact h2 j hj
  · intro j hj
    rw [dirtyFlag_congr cur (cur.markDirty i) j
      (markDirty_get_notMem cur i j (by rw [hch]; exact hj))]
    exact h3 j hj
  · intro j hj
    rw [markDirty_nextId] at hj
    exact markDirty_get_none cur i j (h4 j hj)

theorem dirtyPre_reparent (st cur : Store) (i : AtomId)
    (h : DirtyPre st i cur) (c p : AtomId) (b : BranchName)
    (hc : c ∉ st.dirtyChain i) : DirtyPre st i (reparent cur c p b) := by
  obtain ⟨h1, h2, h3, h4⟩ := h
  refine ⟨?_, ?_, ?_, ?_⟩
  · rw [dom_reparent]
    exact h1
  · intro j hj
    rw [parentView_reparent_ne _ _ _ _ _
      (fun he => hc (by rw [← he]; exact hj))]
    exact h2 j hj
  · intro j hj
    rw [dirtyFlag_reparent]
    exact h3 j hj
  · intro j hj
    rw [nextId_reparent] at hj
    exact eq_none_of_isSome_eq (isSome_reparent cur c p b j) (h4 j hj)

theorem dirtyPre_unparentAll (st cur : Store) (i : AtomId)
    (h : DirtyPre st i cur) (cs : List AtomId)
    (hcs : ∀ c ∈ cs, c ∉ st.dirtyChain i) :
    DirtyPre st i (cs.foldl unparent cur) := by
  obtain ⟨h1, h2, h3, h4⟩ := h
  refine ⟨?_, ?_, ?_, ?_⟩
  · rw [dom_unparentAll]
    exact h1
  · intro j hj
    rw [parentView_unparentAll cs cur j (fun hm => (hcs j hm) hj)]
    exact h2 j hj
  · intro j hj
    rw [dirtyFlag_unparentAll]
    exact h3 j hj
  · intro j hj
    rw [nextId_unparentAll] at hj
    exact eq_none_of_isSome_eq (isSome_unparentAll cs cur j) (h4 j hj)

theorem dirtyPre_alloc (st cur : Store) (i : AtomId)
    (hcl : st.chainClosedAt i = true)
    (h : DirtyPre st i cur) (F : MAtom) (hF : F.isDirtyF = false) :
    DirtyPre st i ((cur.alloc F).1) := by
  obtain ⟨h1, h2, h3, h4⟩ := h
  refine ⟨?_, ?_, ?_, ?_⟩
  · rw [dom_alloc]
    simp only [List.length_append, List.length_cons, List.length_nil]
    omega
  · intro j hj
    have hne : j ≠ cur.nextId := by
      intro he
      obtain ⟨q, hq⟩ := dirtyChain_mem_view st i hcl j hj
      have : parentView cur j = some q := by rw [h2 j hj, hq]
      rw [parentView, h4 j (le_of_eq he.symm)] at this
      exact absurd this (by simp)
    rw [parentView_alloc_ne _ _ _ hne]
    exact h2 j hj
  · intro j hj
    by_cases hne : j = cur.nextId
    · have hl : dirtyFlag ((cur.alloc F).1) j = false := by
        rw [dirtyFlag, get_alloc, if_pos hne]
        exact hF
      have hr : dirtyFlag cur j = false := by
        rw [dirtyFlag, h4 j (le_of_eq hne.symm)]
      rw [hl, ← hr]
      exact h3 j hj
    · rw [dirtyFlag_congr cur ((cur.alloc F).1) j
        (by rw [get_alloc, if_neg hne])]
      exact h3 j hj
  · intro j hj
    rw [nextId_alloc] at hj
    have hne : j ≠ cur.nextId := by
      intro he
      rw [he] at hj
      exact Nat.not_succ_le_self _ hj
    rw [get_alloc, if_neg hne]
    exact h4 j (le_trans (Nat.le_succ _) hj)

theorem markDirty_final (st cur : Store) (i : AtomId)
    (hcl : st.chainClosedAt i = true)
    (h : DirtyPre st i cur) : DirtyPost st i (cur.markDirty i) := by
  obtain ⟨hch, _⟩ := dirtyChain_transport st cur i hcl h.1 h.2.1
  constructor
  · intro j hj
    exact markDirty_marks cur i j (by rw [hch]; exact hj)
  · intro j hj
    rw [dirtyFlag_congr cur (cur.markDirty i) j
      (markDirty_get_notMem cur i j (by rw [hch]; exact hj))]
    exact h.2.2.1 j hj

theorem dirtyPost_reparent (st cur : Store) (i : AtomId)
    (h : DirtyPost st i cur) (c p : AtomId) (b : BranchName) :
    DirtyPost st i (reparent cur c p b) := by
  obtain ⟨h1, h2⟩ := h
  constructor
  · intro j hj
    refine ⟨?_, ?_⟩
    · rw [dirtyFlag_reparent]
      exact (h1 j hj).1
    · exact (cachesCleared_reparent cur c p b j).mpr (h1 j hj).2
  · intro j hj
    rw [dirtyFlag_reparent]
    exact h2 j hj

theorem dirtyPost_unparent (st cur : Store) (i : AtomId)
    (h : DirtyPost st i cur) (c : AtomId) :
    DirtyPost st i (unparent cur c) := by
  obtain ⟨h1, h2⟩ := h
  constructor
  · intro j hj
    refine ⟨?_, ?_⟩
    · rw [dirtyFlag_unparent]
      exact (h1 j hj).1
    · exact (cachesCleared_unparent cur c j).mpr (h1 j hj).2
  · intro j hj
    rw [dirtyFlag_unparent]
    exact h2 j hj

theorem dirtyPost_reparentAll (st cur : Store) (i : AtomId)
    (h : DirtyPost st i cur) (cs : List AtomId) (p : AtomId)
    (b : BranchName) : DirtyPost st i (reparentAll cur cs p b) := by
  obtain ⟨h1, h2⟩ := h
  constructor
  · intro j hj
    refine ⟨?_, ?_⟩
    · rw [dirtyFlag_reparentAll]
      exact (h1 j hj).1
    · exact (cachesCleared_reparentAll p b cs cur j).mpr (h1 j hj).2
  · intro j hj
    rw [dirtyFlag_reparentAll]
    exact h2 j hj

theorem createBranch_dirty (st cur st1 : Store) (lst : List AtomId)
    (i : AtomId) (b : BranchName)
    (hcl : st.chainClosedAt i = true)
    (hpre : DirtyPre st i cur)
    (h : cur.createBranch i b = some (st1, lst)) :
    DirtyPre st i st1 ∧ DirtyPost st i st1 := by
  unfold Store.createBranch at h
  split at h
  · exact absurd h (by simp)
  · rename_i node hnode
    injection h with h'
    injection h' with hA hB
    clear hB
    split at hA
    · rw [← hA]
      exact ⟨dirtyPre_markDirty st cur i hcl hpre,
        markDirty_final st cur i hcl hpre⟩
    · split at hA
      rename_i st2 fid hmk
      unfold makeFirstAtom Store.alloc at hmk
      injection hmk with m1 m2
      rw [← hA]
      have hpre2 : DirtyPre st i st2 := by
        rw [← m1]
        exact dirtyPre_alloc st cur i hcl hpre
          { type := AtomType.first
            mode := node.mode
            parent := some i
            treeBranch := some b } rfl
      have hpre3 : DirtyPre st i (st2.writeBranch i b (some [fid])) :=
        dirtyPre_writeBranch st _ i hpre2 i b _
      exact ⟨dirtyPre_markDirty st _ i hcl hpre3,
        markDirty_final st _ i hcl hpre3⟩

theorem addChild_dirty (st cur st' : Store) (i c : AtomId) (b : BranchName)
    (hcl : st.chainClosedAt i = true)
    (hpre : DirtyPre st i cur)
    (happ : cur.addChild i c b = some st') :
    DirtyPost st i st' ∧ (c ∉ st.dirtyChain i → DirtyPre st i st') := by
  unfold Store.addChild at happ
  split at happ
  · exact absurd happ (by simp)
  · rename_i cn hcn
    split at happ
    · exact absurd happ (by simp)
    · split at happ
      · exact absurd happ (by simp)
      · rename_i st1 lst hcb
        injection happ with h'
        rw [← h']
        obtain ⟨hpre1, _⟩ := createBranch_dirty st cur st1 lst i b hcl hpre hcb
        have hpre2 : DirtyPre st i
            (st1.writeBranch i b (some (lst ++ [c]))) :=
          dirtyPre_writeBranch st st1 i hpre1 i b _
        refine ⟨dirtyPost_reparent st _ i
          (markDirty_final st _ i hcl hpre2) c i b, fun hc =>
          dirtyPre_reparent st _ i
            (dirtyPre_markDirty st _ i hcl hpre2) c i b hc⟩

theorem setChildren_dirty (st st' : Store) (i : AtomId)
    (children : List AtomId) (b : BranchName)
    (hcl : st.chainClosedAt i = true)
    (hfree : ∀ j, st.nextId ≤ j → st.get j = none)
    (h : st.setChildren i children b = some st') :
    DirtyPost st i st' := by
  unfold Store.setChildren at h
  split at h
  · exact absurd h (by simp)
  · rename_i a ha
    split at h
    · exact absurd h (by simp)
    · injection h with h'
      rw [← h']
      apply dirtyPost_reparentAll
      apply markDirty_final st _ i hcl
      apply dirtyPre_writeBranch
      exact dirtyPre_alloc st st i hcl (dirtyPre_refl st i hfree) _ rfl

theorem addChildBefore_dirty (st st' : Store) (i c before : AtomId)
    (hcl : st.chainClosedAt i = true)
    (hpre : DirtyPre st i st)
    (h : st.addChildBefore i c before = some st') :
    DirtyPost st i st' := by
  unfold Store.addChildBefore at h
  split at h
  · exact absurd h (by simp)
  · rename_i bn hbn
    split at h
    · exact absurd h (by simp)
    · rename_i b htb
      split at h
      · exact absurd h (by simp)
      · rename_i st1 lst hcb
        injection h with h'
        rw [← h']
        obtain ⟨hpre1, _⟩ := createBranch_dirty st st st1 lst i b hcl hpre hcb
        apply dirtyPost_reparent
        apply markDirty_final st _ i hcl
        exact dirtyPre_writeBranch st st1 i hpre1 i b _

theorem addChildAfter_dirty (st st' : Store) (i c after : AtomId)
    (hcl : st.chainClosedAt i = true)
    (hpre : DirtyPre st i st)
    (h : st.addChildAfter i c after = some st') :
    DirtyPost st i st' := by
  unfold Store.addChildAfter at h
  split at h
  · exact absurd h (by simp)
  · rename_i an han
    split at h
    · exact absurd h (by simp)
    · rename_i b htb
      split at h
      · exact absurd h (by simp)
      · rename_i st1 lst hcb
        injection h with h'
        rw [← h']
        obtain ⟨hpre1, _⟩ := createBranch_dirty st st st1 lst i b hcl hpre hcb
        apply dirtyPost_reparent
        apply markDirty_final st _ i hcl
        exact dirtyPre_writeBranch st st1 i hpre1 i b _

theorem addChildrenAfter_dirty (st st' : Store) (i : AtomId)
    (children : List AtomId) (after : AtomId)
    (hcl : st.chainClosedAt i = true)
    (hpre : DirtyPre st i st)
    (h : st.addChildrenAfter i children after = some st') :
    DirtyPost st i st' := by
  unfold Store.addChildrenAfter at h
  split at h
  · exact absurd h (by simp)
  · split at h
    · exact absurd h (by simp)
    · rename_i an han
      split at h
      · exact absurd h (by simp)
      · rename_i b htb
        split at h
        · exact absurd h (by simp)
        · rename_i st1 lst hcb
          injection h with h'
          rw [← h']
          obtain ⟨hpre1, _⟩ :=
            createBranch_dirty st st st1 lst i b hcl hpre hcb
          apply dirtyPost_reparentAll
          apply markDirty_final st _ i hcl
          exact dirtyPre_writeBranch st st1 i hpre1 i b _

theorem removeBranch_dirty (st st1 : Store) (rest : List AtomId)
    (i : AtomId) (name : BranchName)
    (hcl : st.chainClosedAt i = true)
    (hfree : ∀ j, st.nextId ≤ j → st.get j = none)
    (hmd : ∀ j ∈ (st.branchList i name).getD [], j ∉ st.dirtyChain i)
    (h : st.removeBranch i name = some (st1, rest)) :
    DirtyPost st i st1 := by
  unfold Store.removeBranch at h
  split at h
  · exact absurd h (by simp)
  · rename_i children hbl
    rw [hbl] at hmd
    simp only [Option.getD] at hmd
    split at h
    · exact absurd h (by simp)
    · rename_i f r
      have h2 : (match (List.foldl unparent (st.writeBranch i name none)
          (f :: r)).get f with
        | none => none
        | some fn =>
          if fn.type = AtomType.first then
            some ((List.foldl unparent (st.writeBranch i name none)
              (f :: r)).markDirty i, r)
          else none) = some (st1, rest) := h
      clear h
      split at h2
      · exact absurd h2 (by simp)
      · split at h2
        · injection h2 with h'
          injection h' with hA hB
          rw [← hA]
          apply markDirty_final st _ i hcl
          exact dirtyPre_unparentAll st _ i
            (dirtyPre_writeBranch st st i (dirtyPre_refl st i hfree)
              i name none) (f :: r) hmd
        · exact absurd h2 (by simp)

theorem removeChild_dirty (st st' : Store) (i c : AtomId)
    (hcl : st.chainClosedAt i = true)
    (hfree : ∀ j, st.nextId ≤ j → st.get j = none)
    (hns : ∀ cn, st.get c = some cn → cn.type ≠ AtomType.first)
    (h : st.removeChild i c = some st') :
    DirtyPost st i st' := by
  unfold Store.removeChild at h
  split at h
  · exact absurd h (by simp)
  · rename_i cn hcn
    split at h
    · split at h
      · rename_i hty
        exact absurd hty (hns cn hcn)
      · split at h
        · exact absurd h (by simp)
        · rename_i b htb
          split at h
          · exact absurd h (by simp)
          · rename_i lst hlst
            split at h
            · exact absurd h (by simp)
            · rename_i idx hidx
              injection h with h'
              rw [← h']
              apply dirtyPost_unparent
              apply markDirty_final st _ i hcl
              exact dirtyPre_writeBranch st st i
                (dirtyPre_refl st i hfree) i b _
    · exact absurd h (by simp)

theorem addChildren_dirty (st : Store) (i : AtomId) (b : BranchName)
    (hcl : st.chainClosedAt i = true) :
    ∀ (cs : List AtomId) (cur st' : Store), DirtyPre st i cur →
      (∀ c ∈ cs, c ∉ st.dirtyChain i) →
      cur.addChildren i cs b = some st' →
      DirtyPre st i st' ∧ (DirtyPost st i cur → DirtyPost st i st') ∧
        (cs ≠ [] → DirtyPost st i st') := by
  intro cs
  induction cs with
  | nil =>
    intro cur st' hpre _ happ
    unfold Store.addChildren at happ
    injection happ with h'
    rw [← h']
    exact ⟨hpre, fun hp => hp, fun hne => absurd rfl hne⟩
  | cons c rest ih =>
    intro cur st' hpre hcs happ
    unfold Store.addChildren at happ
    rw [List.foldlM_cons] at happ
    cases hstep : cur.addChild i c b with
    | none => rw [hstep] at happ; exact absurd happ (by simp)
    | some cur1 =>
      rw [hstep] at happ
      simp only [Option.bind_eq_bind, Option.some_bind] at happ
      obtain ⟨hpost1, hpre1⟩ :=
        addChild_dirty st cur cur1 i c b hcl hpre hstep
      have hpre1' : DirtyPre st i cur1 :=
        hpre1 (hcs c (List.mem_cons_self _ _))
      obtain ⟨ihA, ihB, _⟩ := ih cur1 st' hpre1'
        (fun d hd => hcs d (List.mem_cons_of_mem _ hd)) happ
      exact ⟨ihA, fun _ => ihB hpost1, fun _ => ihB hpost1⟩

/-- C5: a successful mutation operation (`setChildren`, `addChild`,
`addChildBefore`, `addChildAfter`, `addChildren`, `addChildrenAfter`,
`createBranch`, `removeBranch`, `removeChild`) that actually mutates
(is not one of the two degenerate no-op invocations) sets the dirty
flag on its target node and on every ancestor up to the root, clearing
each one's cached flattened-child list and cached serialization string,
and changes no dirty flag outside that node-to-root chain. -/
theorem c5_dirty_propagation (st st' : Store) (op : Op)
    (hfree : ∀ j, st.nextId ≤ j → st.get j = none)
    (hcl : st.chainClosedAt op.target = true)
    (hmd : ∀ j ∈ op.midDetached st, j ∉ st.dirtyChain op.target)
    (hop : ¬ op.isNoOp st)
    (happ : Op.apply st op = some st') :
    (∀ j ∈ st.dirtyChain op.target, dirtyFlag st' j = true ∧
        cachesCleared st' j) ∧
    (∀ j, j ∉ st.dirtyChain op.target →
        dirtyFlag st' j = dirtyFlag st j) := by
  cases op with
  | setChildren t cs b =>
    exact setChildren_dirty st st' t cs b hcl hfree happ
  | addChild t c b =>
    exact (addChild_dirty st st st' t c b hcl
      (dirtyPre_refl st t hfree) happ).1
  | addChildBefore t c before =>
    exact addChildBefore_dirty st st' t c before hcl
      (dirtyPre_refl st t hfree) happ
  | addChildAfter t c after =>
    exact addChildAfter_dirty st st' t c after hcl
      (dirtyPre_refl st t hfree) happ
  | addChildren t cs b =>
    have hne : cs ≠ [] := hop
    exact (addChildren_dirty st t b hcl cs st st'
      (dirtyPre_refl st t hfree) hmd happ).2.2 hne
  | addChildrenAfter t cs after =>
    exact addChildrenAfter_dirty st st' t cs after hcl
      (dirtyPre_refl st t hfree) happ
  | createBranch t b =>
    replace happ : (st.createBranch t b).map (fun q => q.1) = some st' :=
      happ
    cases hcb : st.createBranch t b with
    | none => rw [hcb] at happ; exact absurd happ (by simp)
    | some p =>
      rw [hcb] at happ
      injection happ with h'
      rw [← h']
      exact (createBranch_dirty st st p.1 p.2 t b hcl
        (dirtyPre_refl st t hfree) (by rw [hcb])).2
  | removeBranch t name =>
    replace happ : (st.removeBranch t name).map (fun q => q.1) = some st' :=
      happ
    cases hrb : st.removeBranch t name with
    | none => rw [hrb] at happ; exact absurd happ (by simp)
    | some p =>
      rw [hrb] at happ
      injection happ with h'
      rw [← h']
      exact removeBranch_dirty st p.1 p.2 t name hcl hfree hmd
        (by rw [hrb])
  | removeChild t c =>
    refine removeChild_dirty st st' t c hcl hfree ?_ happ
    intro cn hcn hty
    exact hop ⟨cn, hcn, hty⟩

/-- Witness for C5: appending detached node 3 under node 2 of the
three-node store `stW` marks nodes 2 and 1 (the chain to the root)
dirty with caches cleared and leaves every other dirty flag alone. -/
theorem c5_witness :
    (∀ j ∈ stW.dirtyChain (Op.target opW), dirtyFlag stW' j = true ∧
        cachesCleared stW' j) ∧
    (∀ j, j ∉ stW.dirtyChain (Op.target opW) →
        dirtyFlag stW' j = dirtyFlag stW j) :=
  c5_dirty_propagation stW stW' opW
    (by
      intro j hj
      have h1 : j ≠ 1 := by rintro rfl; exact absurd hj (by decide)
      have h2 : j ≠ 2 := by rintro rfl; exact absurd hj (by decide)
      have h3 : j ≠ 3 := by rintro rfl; exact absurd hj (by decide)
      simp only [stW, Store.get]
      rw [if_neg h1, if_neg h2, if_neg h3])
    (by decide)
    (by intro j hj; exact absurd hj (List.not_mem_nil _))
    (fun h => h)
    rfl

theorem detached_of_none (st : Store) (c : AtomId) (hinv : OwnInv st)
    (h : st.get c = none) : Detached st c := by
  intro o b hown
  obtain ⟨n, hn, _, _⟩ := hinv.parentConsist o b c hown
  rw [h] at hn
  exact absurd hn (by simp)

theorem jsSpliceInsert_perm (l : List AtomId) (idx : Int)
    (xs : List AtomId) : (jsSpliceInsert l idx xs).Perm (xs ++ l) := by
  unfold jsSpliceInsert
  have key : ∀ s : ℕ, (l.take s ++ (xs ++ l.drop s)).Perm (xs ++ l) := by
    intro s
    refine List.Perm.trans List.perm_append_comm ?_
    rw [List.append_assoc]
    refine List.Perm.trans
      (List.Perm.append_left xs List.perm_append_comm) ?_
    rw [List.take_append_drop]
  show (l.take (if idx < 0 then max ((l.length : Int) + idx) 0
      else min idx (l.length : Int)).toNat ++ xs ++
    l.drop (if idx < 0 then max ((l.length : Int) + idx) 0
      else min idx (l.length : Int)).toNat).Perm (xs ++ l)
  rw [List.append_assoc]
  exact key _

theorem jsSpliceInsert_mem (l : List AtomId) (idx : Int)
    (xs : List AtomId) (x : AtomId) :
    x ∈ jsSpliceInsert l idx xs ↔ x ∈ xs ∨ x ∈ l := by
  rw [(jsSpliceInsert_perm l idx xs).mem_iff, List.mem_append]

theorem jsSpliceInsert_nodup (l : List AtomId) (idx : Int)
    (xs : List AtomId) (h : (xs ++ l).Nodup) :
    (jsSpliceInsert l idx xs).Nodup :=
  ((jsSpliceInsert_perm l idx xs).nodup_iff).mpr h

theorem ptv_some_fields (st : Store) (c : AtomId) (o : AtomId)
    (b : BranchName) (h : ptv st c = some (some o, some b)) :
    ∃ n, st.get c = some n ∧ n.parent = some o ∧ n.treeBranch = some b := by
  unfold ptv at h
  rw [Option.map_eq_some'] at h
  obtain ⟨n, hn, hf⟩ := h
  refine ⟨n, hn, ?_, ?_⟩
  · exact congrArg Prod.fst hf
  · exact congrArg Prod.snd hf

theorem fields_ptv_some (st : Store) (c : AtomId) (n : MAtom)
    (hn : st.get c = some n) :
    ptv st c = some (n.parent, n.treeBranch) := by
  unfold ptv
  rw [hn]
  rfl

theorem ownInv_update (st st' : Store) (i : AtomId) (b : BranchName)
    (L news : List AtomId)
    (hinv : OwnInv st)
    (hL : st'.branchList i b = some L)
    (hother : ∀ o b', ¬(o = i ∧ b' = b) →
      st'.branchList o b' = st.branchList o b')
    (hmem : ∀ x ∈ L, x ∈ news ∨ Owns st i b x)
    (hnodup : L.Nodup)
    (hnews_ptv : ∀ x ∈ news, ptv st' x = some (some i, some b))
    (hnews_det : ∀ x ∈ news, Detached st x)
    (hold_ptv : ∀ x, x ∉ news → ptv st' x = ptv st x)
    (hfree : ∀ j, st'.nextId ≤ j → st'.get j = none) :
    OwnInv st' := by
  have hchar : ∀ o b' c, Owns st' o b' c →
      (o = i ∧ b' = b ∧ c ∈ news) ∨ (c ∉ news ∧ Owns st o b' c) := by
    intro o b' c hown
    by_cases hob : o = i ∧ b' = b
    · obtain ⟨rfl, rfl⟩ := hob
      obtain ⟨l, hl, hc⟩ := hown
      rw [hL] at hl
      injection hl with hl
      rcases hmem c (hl ▸ hc) with hn | ho
      · exact Or.inl ⟨rfl, rfl, hn⟩
      · refine Or.inr ⟨?_, ho⟩
        intro hcn
        exact hnews_det c hcn o b' ho
    · obtain ⟨l, hl, hc⟩ := hown
      rw [hother o b' hob] at hl
      have ho : Owns st o b' c := ⟨l, hl, hc⟩
      refine Or.inr ⟨?_, ho⟩
      intro hcn
      exact hnews_det c hcn o b' ho
  refine ⟨?_, ?_, ?_, hfree⟩
  · intro o b' c hown
    rcases hchar o b' c hown with ⟨rfl, rfl, hn⟩ | ⟨hcn, ho⟩
    · exact ptv_some_fields st' c _ _ (hnews_ptv c hn)
    · obtain ⟨n, hn, hp, ht⟩ := hinv.parentConsist o b' c ho
      have : ptv st' c = some (some o, some b') := by
        rw [hold_ptv c hcn, fields_ptv_some st c n hn, hp, ht]
      exact ptv_some_fields st' c o b' this
  · intro o b' o2 b2 c h1 h2
    rcases hchar o b' c h1 with ⟨rfl, rfl, hn1⟩ | ⟨hcn1, ho1⟩
    · rcases hchar o2 b2 c h2 with ⟨rfl, rfl, _⟩ | ⟨hcn2, _⟩
      · exact ⟨rfl, rfl⟩
      · exact absurd hn1 hcn2
    · rcases hchar o2 b2 c h2 with ⟨rfl, rfl, hn2⟩ | ⟨_, ho2⟩
      · exact absurd hn2 hcn1
      · exact hinv.unique o b' o2 b2 c ho1 ho2
  · intro o b' l hl
    by_cases hob : o = i ∧ b' = b
    · obtain ⟨rfl, rfl⟩ := hob
      rw [hL] at hl
      injection hl with hl
      rw [← hl]
      exact hnodup
    · rw [hother o b' hob] at hl
      exact hinv.nodup o b' l hl

theorem createBranch_obs (st st1 : Store) (lst : List AtomId) (i : AtomId)
    (b : BranchName)
    (hfree : ∀ j, st.nextId ≤ j → st.get j = none)
    (h : st.createBranch i b = some (st1, lst)) :
    (st1.get i).isSome = true ∧
    ((st.branchList i b = some lst ∧
      (∀ o b', st1.branchList o b' = st.branchList o b') ∧
      (∀ x, ptv st1 x = ptv st x) ∧
      st1.nextId = st.nextId ∧
      (∀ j, st1.nextId ≤ j → st1.get j = none) ∧
      (∀ j, (st1.get j).isSome = (st.get j).isSome)) ∨
    (st.branchList i b = none ∧ lst = [st.nextId] ∧
      st1.branchList i b = some [st.nextId] ∧
      (∀ o b', ¬(o = i ∧ b' = b) →
        st1.branchList o b' = st.branchList o b') ∧
      ptv st1 st.nextId = some (some i, some b) ∧
      (∀ x, x ≠ st.nextId → ptv st1 x = ptv st x) ∧
      st1.nextId = st.nextId + 1 ∧
      (∀ j, st1.nextId ≤ j → st1.get j = none) ∧
      (∀ j, j ≠ st.nextId → (st1.get j).isSome = (st.get j).isSome))) := by
  unfold Store.createBranch at h
  split at h
  · exact absurd h (by simp)
  · rename_i node hnode
    injection h with h'
    injection h' with hA hB
    split at hA
    · rename_i l heq
      rw [heq] at hB
      have hBl : l = lst := hB
      rw [← hA]
      constructor
      · show ((st.markDirty i).get i).isSome = true
        rw [markDirty_isSome, hnode]
        rfl
      refine Or.inl ⟨?_, ?_, ?_, ?_, ?_, ?_⟩
      · rw [branchList_get_eq st i node hnode b, heq, hBl]
      · intro o b'
        exact markDirty_branchList st i o b'
      · intro x
        exact markDirty_ptv st i x
      · exact markDirty_nextId st i
      · intro j hj
        rw [markDirty_nextId] at hj
        exact markDirty_get_none st i j (hfree j hj)
      · intro j
        exact markDirty_isSome st i j
    · rename_i heq
      split at hA
      rename_i st2 fid hmk
      rw [heq] at hB
      rw [hmk] at hB
      have hBl : [fid] = lst := hB
      unfold makeFirstAtom Store.alloc at hmk
      injection hmk with m1 m2
      have hine : i ≠ st.nextId := by
        intro he
        rw [he, hfree st.nextId (le_refl _)] at hnode
        exact Option.noConfusion hnode
      have hs2 :
          (st.alloc { type := AtomType.first, mode := node.mode, parent := some i, treeBranch := some b }).1 =
            st2 := m1
      have hfid : st.nextId = fid := m2
      rw [← hA, ← hs2, ← hfid]
      have ha' :
          (st.alloc { type := AtomType.first, mode := node.mode, parent := some i, treeBranch := some b }).1.get i =
            some node := by
        rw [get_alloc, if_neg hine]
        exact hnode
      constructor
      · show (((((st.alloc _).1).writeBranch i b
          (some [st.nextId])).markDirty i).get i).isSome = true
        rw [markDirty_isSome, isSome_writeBranch, ha']
        rfl
      refine Or.inr ⟨?_, ?_, ?_, ?_, ?_, ?_, ?_, ?_, ?_⟩
      · rw [branchList_get_eq st i node hnode b, heq]
      · rw [← hBl, ← hfid]
      · rw [markDirty_branchList,
          branchList_writeBranch_self _ _ node ha' b b _, if_pos rfl]
      · intro o b' hob
        rw [markDirty_branchList]
        by_cases ho : o = i
        · have hbb : b' ≠ b := fun hb => hob ⟨ho, hb⟩
          subst ho
          rw [branchList_writeBranch_self _ _ node ha' b b' _,
            if_neg hbb, branchList_alloc _ _ rfl (hfree _ (le_refl _))]
        · rw [branchList_writeBranch_ne _ _ _ _ _ ho,
            branchList_alloc _ _ rfl (hfree _ (le_refl _))]
      · rw [markDirty_ptv, ptv_writeBranch]
        show ptv (st.alloc _).1 st.nextId = _
        rw [ptv, get_alloc, if_pos rfl]
        rfl
      · intro x hx
        rw [markDirty_ptv, ptv_writeBranch, ptv_alloc_ne _ _ _ hx]
      · rw [markDirty_nextId, nextId_writeBranch, nextId_alloc]
      · intro j hj
        rw [markDirty_nextId, nextId_writeBranch, nextId_alloc] at hj
        apply markDirty_get_none
        refine eq_none_of_isSome_eq (isSome_writeBranch _ _ _ _ _) ?_
        have hne : j ≠ st.nextId := by
          intro he
          rw [he] at hj
          exact Nat.not_succ_le_self _ hj
        rw [get_alloc, if_neg hne]
        exact hfree j (le_trans (Nat.le_succ _) hj)
      · intro j hj
        rw [markDirty_isSome, isSome_writeBranch, get_alloc, if_neg hj]

theorem nextId_reparentAll (p : AtomId) (b : BranchName) :
    ∀ (cs : List AtomId) (st : Store),
      (reparentAll st cs p b).nextId = st.nextId := by
  intro cs
  induction cs with
  | nil => intro st; rfl
  | cons c rest ih =>
    intro st
    show (reparentAll (reparent st c p b) rest p b).nextId = _
    rw [ih, nextId_reparent]

theorem attach_master_own (st st1 : Store) (i : AtomId) (b : BranchName)
    (L2 cs fids : List AtomId)
    (hinv : OwnInv st)
    (hi1 : (st1.get i).isSome = true)
    (hoth1 : ∀ o b', ¬(o = i ∧ b' = b) →
      st1.branchList o b' = st.branchList o b')
    (hptv1old : ∀ x, x ∉ fids → ptv st1 x = ptv st x)
    (hptv1new : ∀ x ∈ fids, ptv st1 x = some (some i, some b))
    (hfree1 : ∀ j, st1.nextId ≤ j → st1.get j = none)
    (hsome1 : ∀ j, j ∉ fids → (st1.get j).isSome = (st.get j).isSome)
    (hfids_none : ∀ x ∈ fids, st.get x = none)
    (hmem2 : ∀ x ∈ L2, x ∈ fids ∨ x ∈ cs ∨ Owns st i b x)
    (hnd2 : L2.Nodup)
    (hcs : ∀ c ∈ cs, Detached st c ∧ (st.get c).isSome = true) :
    OwnInv (reparentAll ((st1.writeBranch i b (some L2)).markDirty i)
      cs i b) := by
  obtain ⟨a1, ha1⟩ := Option.isSome_iff_exists.mp hi1
  have hdisj : ∀ x ∈ cs, x ∉ fids := by
    intro x hx hf
    have h2 := (hcs x hx).2
    rw [hfids_none x hf] at h2
    simp at h2
  apply ownInv_update st _ i b L2 (fids ++ cs) hinv
  · rw [branchList_reparentAll, markDirty_branchList,
      branchList_writeBranch_self st1 i a1 ha1 b b _, if_pos rfl]
  · intro o b' hob
    rw [branchList_reparentAll, markDirty_branchList]
    by_cases ho : o = i
    · have hbb : b' ≠ b := fun hb => hob ⟨ho, hb⟩
      subst ho
      rw [branchList_writeBranch_self st1 o a1 ha1 b b' _, if_neg hbb]
      exact hoth1 o b' hob
    · rw [branchList_writeBranch_ne _ _ _ _ _ ho]
      exact hoth1 o b' hob
  · intro x hx
    rcases hmem2 x hx with h | h | h
    · exact Or.inl (List.mem_append.mpr (Or.inl h))
    · exact Or.inl (List.mem_append.mpr (Or.inr h))
    · exact Or.inr h
  · exact hnd2
  · intro x hx
    rcases List.mem_append.mp hx with hf | hc
    · rw [ptv_reparentAll_notMem _ _ _ _ _ (fun hm => hdisj x hm hf),
        markDirty_ptv, ptv_writeBranch]
      exact hptv1new x hf
    · apply ptv_reparentAll_mem _ _ _ _ _ hc
      rw [markDirty_isSome, isSome_writeBranch, hsome1 x (hdisj x hc)]
      exact (hcs x hc).2
  · intro x hx
    rcases List.mem_append.mp hx with hf | hc
    · exact detached_of_none st x hinv (hfids_none x hf)
    · exact (hcs x hc).1
  · intro x hx
    have hxf : x ∉ fids := fun hm => hx (List.mem_append.mpr (Or.inl hm))
    have hxc : x ∉ cs := fun hm => hx (List.mem_append.mpr (Or.inr hm))
    rw [ptv_reparentAll_notMem _ _ _ _ _ hxc, markDirty_ptv,
      ptv_writeBranch]
    exact hptv1old x hxf
  · intro j hj
    rw [nextId_reparentAll, markDirty_nextId, nextId_writeBranch] at hj
    refine eq_none_of_isSome_eq ?_ (hfree1 j hj)
    rw [isSome_reparentAll, markDirty_isSome, isSome_writeBranch]

theorem createBranch_attach_own (st st1 st' : Store) (i : AtomId)
    (b : BranchName) (lst L2 cs : List AtomId)
    (hinv : OwnInv st)
    (hcb : st.createBranch i b = some (st1, lst))
    (hcs : ∀ c ∈ cs, Detached st c ∧ (st.get c).isSome = true)
    (hnd : cs.Nodup)
    (hperm : L2.Perm (cs ++ lst))
    (hres : reparentAll ((st1.writeBranch i b (some L2)).markDirty i)
      cs i b = st') :
    OwnInv st' := by
  rw [← hres]
  obtain ⟨hi1, hobs⟩ := createBranch_obs st st1 lst i b hinv.highFree hcb
  rcases hobs with ⟨hbl, hoth, hptv, hnext, hfree1, hsome⟩ |
    ⟨hbl0, hlst, hbl1, hoth, hptvnew, hptvold, hnext, hfree1, hsome⟩
  · have hlstnd : lst.Nodup := hinv.nodup i b lst hbl
    have hdisj : ∀ x ∈ cs, x ∉ lst := by
      intro x hx hm
      exact (hcs x hx).1 i b ⟨lst, hbl, hm⟩
    have hndL : L2.Nodup := by
      refine hperm.nodup_iff.mpr ?_
      exact List.Nodup.append hnd hlstnd (fun x hx hm => hdisj x hx hm)
    refine attach_master_own st st1 i b L2 cs [] hinv hi1
      (fun o b' _ => hoth o b')
      (fun x _ => hptv x)
      (fun x hx => absurd hx (List.not_mem_nil _))
      hfree1
      (fun j _ => hsome j)
      (fun x hx => absurd hx (List.not_mem_nil _))
      ?_ hndL hcs
    intro x hx
    rcases List.mem_append.mp (hperm.mem_iff.mp hx) with hc | hl
    · exact Or.inr (Or.inl hc)
    · exact Or.inr (Or.inr ⟨lst, hbl, hl⟩)
  · have hnid_cs : ∀ x ∈ cs, x ≠ st.nextId := by
      intro x hx he
      have h2 := (hcs x hx).2
      rw [he, hinv.highFree st.nextId (le_refl _)] at h2
      simp at h2
    have hndL : L2.Nodup := by
      refine hperm.nodup_iff.mpr ?_
      rw [hlst]
      refine List.Nodup.append hnd (List.nodup_singleton _) ?_
      intro x hx hm
      rw [List.mem_singleton] at hm
      exact hnid_cs x hx hm
    refine attach_master_own st st1 i b L2 cs [st.nextId] hinv hi1
      hoth
      (fun x hx => hptvold x (by simpa using hx))
      (fun x hx => by rw [List.mem_singleton] at hx; rw [hx]; exact hptvnew)
      hfree1
      (fun j hj => hsome j (by simpa using hj))
      (fun x hx => by
        rw [List.mem_singleton] at hx
        rw [hx]
        exact hinv.highFree st.nextId (le_refl _))
      ?_ hndL hcs
    intro x hx
    rcases List.mem_append.mp (hperm.mem_iff.mp hx) with hc | hl
    · exact Or.inr (Or.inl hc)
    · rw [hlst, List.mem_singleton] at hl
      rw [hl]
      exact Or.inl (List.mem_singleton_self _)

theorem addChild_own (st st' : Store) (i c : AtomId) (b : BranchName)
    (hinv : OwnInv st) (hdet : Detached st c)
    (hex : (st.get c).isSome = true)
    (happ : st.addChild i c b = some st') : OwnInv st' := by
  unfold Store.addChild at happ
  split at happ
  · exact absurd happ (by simp)
  · split at happ
    · exact absurd happ (by simp)
    · split at happ
      · exact absurd happ (by simp)
      · rename_i st1 lst hcb
        injection happ with h'
        refine createBranch_attach_own st st1 st' i b lst (lst ++ [c])
          [c] hinv hcb ?_ (List.nodup_singleton _)
          List.perm_append_comm h'
        intro d hd
        rw [List.mem_singleton] at hd
        rw [hd]
        exact ⟨hdet, hex⟩

theorem addChildBefore_own (st st' : Store) (i c before : AtomId)
    (hinv : OwnInv st) (hdet : Detached st c)
    (hex : (st.get c).isSome = true)
    (happ : st.addChildBefore i c before = some st') : OwnInv st' := by
  unfold Store.addChildBefore at happ
  split at happ
  · exact absurd happ (by simp)
  · split at happ
    · exact absurd happ (by simp)
    · rename_i b htb
      split at happ
      · exact absurd happ (by simp)
      · rename_i st1 lst hcb
        injection happ with h'
        refine createBranch_attach_own st st1 st' i b lst
          (jsSpliceInsert lst (jsIndexOf lst before) [c])
          [c] hinv hcb ?_ (List.nodup_singleton _)
          (jsSpliceInsert_perm lst _ [c]) h'
        intro d hd
        rw [List.mem_singleton] at hd
        rw [hd]
        exact ⟨hdet, hex⟩

theorem addChildAfter_own (st st' : Store) (i c after : AtomId)
    (hinv : OwnInv st) (hdet : Detached st c)
    (hex : (st.get c).isSome = true)
    (happ : st.addChildAfter i c after = some st') : OwnInv st' := by
  unfold Store.addChildAfter at happ
  split at happ
  · exact absurd happ (by simp)
  · split at happ
    · exact absurd happ (by simp)
    · rename_i b htb
      split at happ
      · exact absurd happ (by simp)
      · rename_i st1 lst hcb
        injection happ with h'
        refine createBranch_attach_own st st1 st' i b lst
          (jsSpliceInsert lst (jsIndexOf lst after + 1) [c])
          [c] hinv hcb ?_ (List.nodup_singleton _)
          (jsSpliceInsert_perm lst _ [c]) h'
        intro d hd
        rw [List.mem_singleton] at hd
        rw [hd]
        exact ⟨hdet, hex⟩

theorem addChildrenAfter_own (st st' : Store) (i : AtomId)
    (children : List AtomId) (after : AtomId)
    (hinv : OwnInv st)
    (hcs : ∀ c ∈ children, Detached st c ∧ (st.get c).isSome = true)
    (hnd : children.Nodup)
    (happ : st.addChildrenAfter i children after = some st') :
    OwnInv st' := by
  unfold Store.addChildrenAfter at happ
  split at happ
  · exact absurd happ (by simp)
  · split at happ
    · exact absurd happ (by simp)
    · split at happ
      · exact absurd happ (by simp)
      · rename_i b htb
        split at happ
        · exact absurd happ (by simp)
        · rename_i st1 lst hcb
          injection happ with h'
          exact createBranch_attach_own st st1 st' i b lst
            (jsSpliceInsert lst (jsIndexOf lst after + 1) children)
            children hinv hcb hcs hnd
            (jsSpliceInsert_perm lst _ children) h'

theorem setChildren_own (st st' : Store) (i : AtomId)
    (children : List AtomId) (b : BranchName)
    (hinv : OwnInv st)
    (hcs : ∀ c ∈ children, Detached st c ∧ (st.get c).isSome = true)
    (hnd : children.Nodup)
    (happ : st.setChildren i children b = some st') : OwnInv st' := by
  unfold Store.setChildren at happ
  split at happ
  · exact absurd happ (by simp)
  · rename_i a ha
    split at happ
    · exact absurd happ (by simp)
    · injection happ with h'
      have h2 :
          reparentAll
            (((st.alloc { type := AtomType.first, mode := a.mode, parent := some i, treeBranch := some b }).1.writeBranch
              i b (some (st.nextId :: children))).markDirty i)
            children i b = st' := h'
      rw [← h2]
      have hine : i ≠ st.nextId := by
        intro he
        rw [he, hinv.highFree st.nextId (le_refl _)] at ha
        exact Option.noConfusion ha
      have hnid_cs : ∀ x ∈ children, x ≠ st.nextId := by
        intro x hx he
        have h2 := (hcs x hx).2
        rw [he, hinv.highFree st.nextId (le_refl _)] at h2
        simp at h2
      refine attach_master_own st _ i b (st.nextId :: children) children
        [st.nextId] hinv ?_ ?_ ?_ ?_ ?_ ?_ ?_ ?_ ?_ hcs
      · rw [get_alloc, if_neg hine, ha]
        rfl
      · intro o b' _
        exact branchList_alloc st _ rfl
          (hinv.highFree st.nextId (le_refl _)) o b'
      · intro x hx
        rw [List.mem_singleton] at hx
        exact ptv_alloc_ne st _ x hx
      · intro x hx
        rw [List.mem_singleton] at hx
        rw [hx, ptv, get_alloc, if_pos rfl]
        rfl
      · intro j hj
        rw [nextId_alloc] at hj
        have hne : j ≠ st.nextId := by
          intro he
          rw [he] at hj
          exact Nat.not_succ_le_self _ hj
        rw [get_alloc, if_neg hne]
        exact hinv.highFree j (le_trans (Nat.le_succ _) hj)
      · intro j hj
        rw [List.mem_singleton] at hj
        rw [get_alloc, if_neg hj]
      · intro x hx
        rw [List.mem_singleton] at hx
        rw [hx]
        exact hinv.highFree st.nextId (le_refl _)
      · intro x hx
        rcases List.mem_cons.mp hx with h | h
        · rw [h]
          exact Or.inl (List.mem_singleton_self _)
        · exact Or.inr (Or.inl h)
      · exact List.nodup_cons.mpr ⟨fun hm => hnid_cs _ hm rfl, hnd⟩

/-- C6 (amended): a sequence of attach operations each of whose
inserted children is detached and allocated at the moment it runs
preserves the exclusive single-parent ownership invariant. -/
theorem c6_ownership (ops : List Op) : ∀ (st st' : Store),
    OwnInv st → SeqOK st ops → applySeq st ops = some st' →
    OwnInv st' := by
  induction ops with
  | nil =>
    intro st st' hinv _ happ
    unfold applySeq at happ
    injection happ with h'
    rw [← h']
    exact hinv
  | cons op rest ih =>
    intro st st' hinv hseq happ
    obtain ⟨hatt, hfr, hnext⟩ := hseq
    unfold applySeq at happ
    rw [List.foldlM_cons] at happ
    cases hstep : Op.apply st op with
    | none => rw [hstep] at happ; exact absurd happ (by simp)
    | some st1 =>
      rw [hstep] at happ
      simp only [Option.bind_eq_bind, Option.some_bind] at happ
      have hinv1 : OwnInv st1 := by
        cases op with
        | setChildren t cs b =>
          exact setChildren_own st st1 t cs b hinv hfr.1 hfr.2 hstep
        | addChild t c b =>
          exact addChild_own st st1 t c b hinv
            (hfr.1 c (List.mem_singleton_self _)).1
            (hfr.1 c (List.mem_singleton_self _)).2 hstep
        | addChildBefore t c before =>
          exact addChildBefore_own st st1 t c before hinv
            (hfr.1 c (List.mem_singleton_self _)).1
            (hfr.1 c (List.mem_singleton_self _)).2 hstep
        | addChildAfter t c after =>
          exact addChildAfter_own st st1 t c after hinv
            (hfr.1 c (List.mem_singleton_self _)).1
            (hfr.1 c (List.mem_singleton_self _)).2 hstep
        | addChildrenAfter t cs after =>
          exact addChildrenAfter_own st st1 t cs after hinv
            hfr.1 hfr.2 hstep
        | addChildren t cs b => exact Bool.noConfusion hatt
        | createBranch t b => exact Bool.noConfusion hatt
        | removeBranch t name => exact Bool.noConfusion hatt
        | removeChild t c => exact Bool.noConfusion hatt
      exact ih st1 st' hinv1 (hnext st1 hstep) happ

theorem branchList_stTwo (o : AtomId) (b : BranchName) :
    stTwo.branchList o b = none := by
  by_cases h1 : o = 1
  · subst h1; rfl
  · by_cases h2 : o = 2
    · subst h2; rfl
    · by_cases h3 : o = 3
      · subst h3; rfl
      · unfold Store.branchList
        have hget : stTwo.get o = none := by
          simp only [stTwo, Store.get]
          rw [if_neg h1, if_neg h2, if_neg h3]
        rw [hget]

theorem noOwns_stTwo (o : AtomId) (b : BranchName) (c : AtomId) :
    ¬ Owns stTwo o b c := by
  rintro ⟨l, hl, _⟩
  rw [branchList_stTwo] at hl
  exact Option.noConfusion hl

theorem ownInv_stTwo : OwnInv stTwo := by
  refine ⟨?_, ?_, ?_, ?_⟩
  · intro o b c hown
    exact absurd hown (noOwns_stTwo o b c)
  · intro o b o' b' c h1 _
    exact absurd h1 (noOwns_stTwo o b c)
  · intro o b l hl
    rw [branchList_stTwo] at hl
    exact Option.noConfusion hl
  · intro j hj
    have h1 : j ≠ 1 := by rintro rfl; exact absurd hj (by decide)
    have h2 : j ≠ 2 := by rintro rfl; exact absurd hj (by decide)
    have h3 : j ≠ 3 := by rintro rfl; exact absurd hj (by decide)
    simp only [stTwo, Store.get]
    rw [if_neg h1, if_neg h2, if_neg h3]

theorem seqOKw : SeqOK stTwo [Op.addChild 1 3 BranchName.body] := by
  refine ⟨rfl, ⟨?_, ?_⟩, ?_⟩
  · intro c hc
    have hc2 : c ∈ [(3 : AtomId)] := hc
    rw [List.mem_singleton] at hc2
    subst hc2
    constructor
    · intro o b hown
      exact absurd hown (noOwns_stTwo o b 3)
    · rfl
  · exact List.nodup_singleton _
  · intro st1 _
    exact trivial

/-- C6 counterexample: starting from `stTwo` (two would-be parents and
one detached node, ownership invariant holding), the attach sequence
`opsDouble` succeeds and leaves node 3 a member of `body` of both
node 1 and node 2 — ownership is not exclusive. -/
theorem c6_counterexample :
    OwnInv stTwo ∧ applySeq stTwo opsDouble = some stDouble ∧
    Owns stDouble 1 BranchName.body 3 ∧
    Owns stDouble 2 BranchName.body 3 ∧ (1 : AtomId) ≠ 2 :=
  ⟨ownInv_stTwo, rfl, ⟨[4, 3], rfl, by simp⟩, ⟨[5, 3], rfl, by simp⟩,
    by simp⟩

/-- Witness for C6: a single legitimate attach (detached node 3 under
node 1) preserves the ownership invariant. -/
theorem c6_witness :
    OwnInv ((applySeq stTwo [Op.addChild 1 3 BranchName.body]).getD
      stTwo) :=
  c6_ownership [Op.addChild 1 3 BranchName.body] stTwo _ ownInv_stTwo
    seqOKw rfl

theorem get_reparentAll_notMem (p : AtomId) (b : BranchName) :
    ∀ (cs : List AtomId) (st : Store) (j : AtomId), j ∉ cs →
      (reparentAll st cs p b).get j = st.get j := by
  intro cs
  induction cs with
  | nil => intro st j _; rfl
  | cons c rest ih =>
    intro st j hj
    have hjc : j ≠ c := fun h => hj (by rw [h]; exact List.mem_cons_self _ _)
    have hjr : j ∉ rest := fun h => hj (List.mem_cons_of_mem _ h)
    show (reparentAll (reparent st c p b) rest p b).get j = _
    rw [ih _ j hjr]
    unfold reparent
    rw [Store.get_modify_ne _ _ _ _ hjc]

theorem markDirty_view (st : Store) (i j : AtomId) (n : MAtom)
    (h : st.get j = some n) :
    ∃ nn, (st.markDirty i).get j = some nn ∧ nn.type = n.type ∧
      nn.parent = n.parent ∧ nn.treeBranch = n.treeBranch := by
  rcases markDirty_get_cases st i j with hc | ⟨m, hm, hres⟩
  · exact ⟨n, by rw [hc]; exact h, rfl, rfl, rfl⟩
  · rw [h] at hm
    injection hm with hm
    subst hm
    exact ⟨_, hres, rfl, rfl, rfl⟩

/-- C7: `setChildren(children, branch)` rejects (returns no store) a
list whose first element is a `'first'` sentinel; on success the branch
holds a freshly allocated sentinel followed by exactly the given
children, the sentinel points back at the owner and the branch, every
child is re-parented to the owner with its `treeBranch` set, and the
accepted list's head was not a sentinel (so the branch never starts
with two sentinels). -/
theorem c7_setChildren (st : Store) (i : AtomId)
    (children : List AtomId) (b : BranchName)
    (hfree : st.get st.nextId = none)
    (hex : ∀ c ∈ children, (st.get c).isSome = true) :
    (∀ c cn, children.head? = some c → st.get c = some cn →
        cn.type = AtomType.first →
        st.setChildren i children b = none) ∧
    (∀ st', st.setChildren i children b = some st' →
      st'.branchList i b = some (st.nextId :: children) ∧
      (∃ fn, st'.get st.nextId = some fn ∧ fn.type = AtomType.first ∧
        fn.parent = some i ∧ fn.treeBranch = some b) ∧
      (∀ c ∈ children, ∃ n, st'.get c = some n ∧
        n.parent = some i ∧ n.treeBranch = some b) ∧
      (∀ c cn, children.head? = some c → st.get c = some cn →
        cn.type ≠ AtomType.first)) := by
  constructor
  · intro c cn hhead hget hty
    unfold Store.setChildren
    cases hq : st.get i with
    | none => rfl
    | some a =>
      have hnf : headNotFirst st children = none := by
        unfold headNotFirst
        rw [hhead]
        show (match st.get c with
          | none => none
          | some cn =>
            if cn.type = AtomType.first then none else some ()) = none
        rw [hget]
        show (if cn.type = AtomType.first then none else some ()) = none
        rw [if_pos hty]
      rw [hnf]
  · intro st' happ
    unfold Store.setChildren at happ
    split at happ
    · exact absurd happ (by simp)
    · rename_i a ha
      split at happ
      · exact absurd happ (by simp)
      · rename_i u hnf
        injection happ with h'
        have h2 :
            reparentAll
              (((st.alloc { type := AtomType.first, mode := a.mode, parent := some i, treeBranch := some b }).1.writeBranch
                i b (some (st.nextId :: children))).markDirty i)
              children i b = st' := h'
        rw [← h2]
        have hine : i ≠ st.nextId := by
          intro he
          rw [he, hfree] at ha
          exact Option.noConfusion ha
        have hnid : ∀ c ∈ children, c ≠ st.nextId := by
          intro c hc he
          have h3 := hex c hc
          rw [he, hfree] at h3
          simp at h3
        have hnidm : st.nextId ∉ children := fun hm => hnid _ hm rfl
        have ha2 :
            (st.alloc { type := AtomType.first, mode := a.mode, parent := some i, treeBranch := some b }).1.get i =
              some a := by
          rw [get_alloc, if_neg hine]
          exact ha
        refine ⟨?_, ?_, ?_, ?_⟩
        · rw [branchList_reparentAll, markDirty_branchList,
            branchList_writeBranch_self _ _ a ha2 b b _, if_pos rfl]
        · have hg1 :
              ((st.alloc { type := AtomType.first, mode := a.mode, parent := some i, treeBranch := some b }).1.writeBranch
                i b (some (st.nextId :: children))).get st.nextId =
                some { type := AtomType.first, mode := a.mode, parent := some i, treeBranch := some b } := by
            unfold Store.writeBranch
            rw [Store.get_modify_ne _ _ _ _ (fun he => hine he.symm),
              get_alloc, if_pos rfl]
          obtain ⟨nn, hnn, ht', hp', htb'⟩ :=
            markDirty_view _ i st.nextId _ hg1
          refine ⟨nn, ?_, ht', hp', htb'⟩
          rw [get_reparentAll_notMem _ _ _ _ _ hnidm]
          exact hnn
        · intro c hc
          have hsm :
              ((((st.alloc { type := AtomType.first, mode := a.mode, parent := some i, treeBranch := some b }).1.writeBranch
                i b (some (st.nextId :: children))).markDirty i).get
                  c).isSome = true := by
            rw [markDirty_isSome, isSome_writeBranch, get_alloc,
              if_neg (hnid c hc)]
            exact hex c hc
          exact ptv_some_fields _ c i b
            (ptv_reparentAll_mem i b children _ c hc hsm)
        · intro c cn hhead hget hty
          unfold headNotFirst at hnf
          rw [hhead] at hnf
          have hnf2 : (match st.get c with
            | none => none
            | some cn =>
              if cn.type = AtomType.first then none else some ()) =
              some u := hnf
          rw [hget] at hnf2
          have hnf3 : (if cn.type = AtomType.first then none
            else some ()) = some u := hnf2
          rw [if_pos hty] at hnf3
          exact Option.noConfusion hnf3

/-- Witness for C7: replacing the body of node 1 of `stW` with `[3]`
succeeds and yields sentinel-headed content `[4, 3]`, a fresh sentinel
at id 4 pointing back at node 1, and node 3 re-parented to node 1;
and a list headed by a sentinel would have been rejected. -/
theorem c7_witness :
    (∀ c cn, List.head? [3] = some c → stW.get c = some cn →
        cn.type = AtomType.first →
        stW.setChildren 1 [3] BranchName.body = none) ∧
    (∀ st', stW.setChildren 1 [3] BranchName.body = some st' →
      st'.branchList 1 BranchName.body = some (stW.nextId :: [3]) ∧
      (∃ fn, st'.get stW.nextId = some fn ∧ fn.type = AtomType.first ∧
        fn.parent = some 1 ∧ fn.treeBranch = some BranchName.body) ∧
      (∀ c ∈ [3], ∃ n, st'.get c = some n ∧
        n.parent = some 1 ∧ n.treeBranch = some BranchName.body) ∧
      (∀ c cn, List.head? [3] = some c → stW.get c = some cn →
        cn.type ≠ AtomType.first)) :=
  c7_setChildren stW 1 [3] BranchName.body rfl
    (by
      intro c hc
      rw [List.mem_singleton] at hc
      subst hc
      rfl)

end Mut

end Mathlive
